import Mathlib

/-!
Verification of the storage engine of codebase-storage
(src/src/storage/storage.service.ts) via a shallow embedding.

The filesystem is modelled as a finite tree of named entries; paths are lists
of segments measured from the filesystem root, and Node's path functions
(join / resolve / basename / extname / relative) are modelled at the segment
level.  Impure inputs of the service (the ISO timestamp used by
generateUniqueFilename, the random UUID prefix, the current time, and the
mime-types lookup table) are passed as explicit parameters.
-/

namespace CodebaseStorage

/-! ### Character-level string utilities

Models of the JavaScript string primitives used by the service:
String.prototype.split(sep), Array.prototype.join(sep), substring tests and
character replacement, all at the level of character lists. -/

/-- Model of JavaScript s.split(sep) for a single-character separator. -/
def splitChar (sep : Char) : List Char → List (List Char)
  | [] => [[]]
  | c :: rest =>
    let r := splitChar sep rest
    if c = sep then [] :: r
    else (c :: r.headI) :: r.tail

/-- Model of JavaScript parts.join(sep) for a single-character separator. -/
def joinChar (sep : Char) : List (List Char) → List Char
  | [] => []
  | [a] => a
  | a :: b :: rest => a ++ sep :: joinChar sep (b :: rest)

/-- Model of JavaScript parts.join(sep) for a string separator. -/
def joinStrs (sep : String) : List String → String
  | [] => ""
  | [a] => a
  | a :: b :: rest => a ++ sep ++ joinStrs sep (b :: rest)

/-! ### Paths and Node path functions -/

/-- An absolute filesystem path, as the list of its segments measured from
the filesystem root. -/
abbrev FsPath := List String

/-- A segment that survives Node path normalization unchanged. -/
def isPlainSeg (s : String) : Prop := s ≠ "" ∧ s ≠ "." ∧ s ≠ ".."

instance (s : String) : Decidable (isPlainSeg s) := by
  unfold isPlainSeg; infer_instance

/-- A string that can actually occur as the name of a directory entry on a
POSIX filesystem: a plain segment containing no separator. -/
def validName (s : String) : Prop := isPlainSeg s ∧ '/' ∉ s.toList

instance (s : String) : Decidable (validName s) := by
  unfold validName; infer_instance

/-- One step of Node path normalization over an absolute path: empty and
dot segments vanish, a parent segment pops (and is dropped at the root). -/
def normStep (acc : List String) (s : String) : List String :=
  if s = "" ∨ s = "." then acc
  else if s = ".." then acc.dropLast
  else acc ++ [s]

/-- Normalization continued from an already-processed prefix. -/
def normFrom (acc : List String) : List String → List String
  | [] => acc
  | s :: rest => normFrom (normStep acc s) rest

/-- Node path normalization of an absolute path given by raw segments. -/
def normSegs (l : List String) : List String := normFrom [] l

/-- Splitting a raw path string into segments at the separator. -/
def splitSegs (s : String) : List String :=
  (splitChar '/' s.toList).map List.asString

/-- Model of Node path.join(base, rel) for an absolute, normalized base. -/
def joinPath (base : FsPath) (rel : String) : FsPath :=
  normSegs (base ++ splitSegs rel)

/-- Length of the longest common prefix of two segment lists. -/
def commonPrefixLen : List String → List String → Nat
  | a :: as, b :: bs => if a = b then commonPrefixLen as bs + 1 else 0
  | _, _ => 0

/-- Model of Node path.relative(base, p) for absolute normalized inputs. -/
def pathRelative (base p : FsPath) : String :=
  let c := commonPrefixLen base p
  joinStrs "/" (List.replicate (base.length - c) ".." ++ p.drop c)

/-- Model of the .replace over backslashes applied to relative paths in
getFileInfo (a Windows-separator normalization). -/
def backslashToSlash (s : String) : String :=
  (s.toList.map (fun c => if c = '\\' then '/' else c)).asString

/-- Model of Node path.basename(p): the portion after the last separator
(trailing separators stripped). -/
def basenameRaw (p : String) : String :=
  (((splitSegs p).filter (fun s => s ≠ "")).getLast?).getD ""

/-- Index of the last dot in a list of characters. -/
def lastDotIdx (l : List Char) : Option Nat :=
  ((l.enum.filter (fun pr => pr.2 = '.')).map Prod.fst).getLast?

/-- Model of Node path.extname(p): the suffix of the basename from its last
dot, except when the dot is leading or the basename is exactly "..". -/
def extname (p : String) : String :=
  match lastDotIdx (basenameRaw p).toList with
  | none => ""
  | some i =>
      if i = 0 ∨ basenameRaw p = ".." then ""
      else ((basenameRaw p).toList.drop i).asString

/-- Model of Node path.basename(p, ext): the basename with a trailing ext
stripped, unless ext is the whole basename. -/
def basenameExt (p ext : String) : String :=
  if ext = basenameRaw p then basenameRaw p
  else if ext.toList.isSuffixOf (basenameRaw p).toList then
    ((basenameRaw p).toList.take
      ((basenameRaw p).toList.length - ext.toList.length)).asString
  else basenameRaw p

/-! ### encodeURIComponent -/

/-- UTF-8 encoding of one code point, as byte values. -/
def utf8Bytes (c : Char) : List Nat :=
  let n := c.toNat
  if n < 128 then [n]
  else if n < 2048 then [192 + n / 64, 128 + n % 64]
  else if n < 65536 then [224 + n / 4096, 128 + (n / 64) % 64, 128 + n % 64]
  else [240 + n / 262144, 128 + (n / 4096) % 64, 128 + (n / 64) % 64, 128 + n % 64]

/-- Upper-case hexadecimal digit. -/
def hexDigit (n : Nat) : Char :=
  if n < 10 then Char.ofNat (48 + n) else Char.ofNat (55 + n)

/-- Percent-escape of one byte. -/
def byteHex (n : Nat) : String :=
  ⟨['%', hexDigit (n / 16), hexDigit (n % 16)]⟩

/-- The characters ECMAScript encodeURIComponent leaves unescaped. -/
def isUnreservedURIChar (c : Char) : Bool :=
  (('A' ≤ c && c ≤ 'Z') || ('a' ≤ c && c ≤ 'z') || ('0' ≤ c && c ≤ '9')
    || c = '-' || c = '_' || c = '.' || c = '!' || c = '~' || c = '*'
    || c = Char.ofNat 39 || c = '(' || c = ')')

/-- Model of ECMAScript encodeURIComponent. -/
def encodeURIComponent (s : String) : String :=
  String.join (s.toList.map (fun c =>
    if isUnreservedURIChar c then String.singleton c
    else String.join ((utf8Bytes c).map byteHex)))

/-! ### The filesystem tree -/

/-- A node of the filesystem: a regular file carrying its size in bytes and
its birth time, or a directory carrying its named children in readdir
order. -/
inductive FsEntry where
  | file (size : Nat) (birth : Nat)
  | dir (children : List (String × FsEntry))
deriving Repr

/-- Names of the children of a directory, in readdir order. -/
def childKeys (cs : List (String × FsEntry)) : List String := cs.map Prod.fst

/-- First child with the given name. -/
def lookupChild (cs : List (String × FsEntry)) (s : String) : Option FsEntry :=
  match cs with
  | [] => none
  | (k, v) :: rest => if k = s then some v else lookupChild rest s

/-- Replace the value of the first child with the given name, appending a new
child at the end of the readdir order when the name is absent. -/
def setChild (cs : List (String × FsEntry)) (s : String) (e : FsEntry) :
    List (String × FsEntry) :=
  match cs with
  | [] => [(s, e)]
  | (k, v) :: rest => if k = s then (k, e) :: rest else (k, v) :: setChild rest s e

/-- Node lookup along a path of segments. -/
def find? : List String → FsEntry → Option FsEntry
  | [], e => some e
  | _ :: _, .file _ _ => none
  | s :: rest, .dir cs =>
    match lookupChild cs s with
    | some c => find? rest c
    | none => none

/-- Model of fs.stat(p).isFile(). -/
def statIsFile (fs : FsEntry) (p : FsPath) : Bool :=
  match find? p fs with
  | some (.file _ _) => true
  | _ => false

/-- Model of fs.stat(p).isDirectory(). -/
def statIsDir (fs : FsEntry) (p : FsPath) : Bool :=
  match find? p fs with
  | some (.dir _) => true
  | _ => false

/-- Model of fs.readdir(p): the child names, or failure when p is not an
existing directory. -/
def readdir? (fs : FsEntry) (p : FsPath) : Option (List String) :=
  match find? p fs with
  | some (.dir cs) => some (childKeys cs)
  | _ => none

/-- Size reported by fs.stat(p) for a regular file. -/
def statSize (fs : FsEntry) (p : FsPath) : Option Nat :=
  match find? p fs with
  | some (.file sz _) => some sz
  | _ => none

/-- Model of fs.mkdir(p, recursive: true): creates the missing directories
along p, failing when a regular file stands in the way. -/
def mkdirRec : List String → FsEntry → Option FsEntry
  | [], .dir cs => some (.dir cs)
  | [], .file _ _ => none
  | _ :: _, .file _ _ => none
  | s :: rest, .dir cs =>
    match lookupChild cs s with
    | some c => (mkdirRec rest c).map (fun c' => .dir (setChild cs s c'))
    | none => (mkdirRec rest (.dir [])).map (fun c' => .dir (cs ++ [(s, c')]))
termination_by structural p _ => p

/-- Model of fs.writeFile(p, buffer): overwrites or creates the file at p,
failing when the parent directory is missing or p is a directory. -/
def writeFileAt : List String → Nat → Nat → FsEntry → Option FsEntry
  | [], _, _, _ => none
  | _ :: _, _, _, .file _ _ => none
  | s :: rest, sz, t, .dir cs =>
    match rest with
    | [] =>
      match lookupChild cs s with
      | some (.dir _) => none
      | _ => some (.dir (setChild cs s (.file sz t)))
    | _ :: _ =>
      match lookupChild cs s with
      | some c => (writeFileAt rest sz t c).map (fun c' => .dir (setChild cs s c'))
      | none => none
termination_by structural p _ _ _ => p

/-- Removal of every child with the given name. -/
def removeChild (cs : List (String × FsEntry)) (s : String) :
    List (String × FsEntry) :=
  match cs with
  | [] => []
  | (k, v) :: rest =>
      if k = s then removeChild rest s else (k, v) :: removeChild rest s

/-- Model of fs.unlink(p): removes the regular file at p. -/
def unlinkAt : List String → FsEntry → Option FsEntry
  | [], _ => none
  | _ :: _, .file _ _ => none
  | s :: rest, .dir cs =>
    match rest with
    | [] =>
      match lookupChild cs s with
      | some (.file _ _) => some (.dir (removeChild cs s))
      | _ => none
    | _ :: _ =>
      match lookupChild cs s with
      | some c => (unlinkAt rest c).map (fun c' => .dir (setChild cs s c'))
      | none => none
termination_by structural p _ => p

/-- Well-formedness of one directory level: distinct child names, every name
a valid POSIX entry name. -/
def wfLevel (cs : List (String × FsEntry)) : Prop :=
  (childKeys cs).Nodup ∧ ∀ kv ∈ cs, validName kv.1

instance (cs : List (String × FsEntry)) : Decidable (wfLevel cs) := by
  unfold wfLevel; infer_instance

/-- Well-formedness of one child of the client directory: when it is an
owner subdirectory, its own level is well-formed. -/
def wfInner : FsEntry → Prop
  | .dir inner => wfLevel inner
  | .file _ _ => True

instance : (e : FsEntry) → Decidable (wfInner e)
  | .dir inner => inferInstanceAs (Decidable (wfLevel inner))
  | .file _ _ => .isTrue trivial

/-- Well-formedness of the two directory levels the storage engine actually
inspects below a client directory. -/
def wfDir2 : Option FsEntry → Prop
  | some (.dir cs) => wfLevel cs ∧ ∀ kv ∈ cs, wfInner kv.2
  | _ => True

instance : (e : Option FsEntry) → Decidable (wfDir2 e)
  | some (.dir cs) =>
      inferInstanceAs (Decidable (wfLevel cs ∧ ∀ kv ∈ cs, wfInner kv.2))
  | some (.file _ _) => .isTrue trivial
  | none => .isTrue trivial

/-! ### The storage service

Translation of the methods of StorageService (storage.service.ts).  The
impure inputs appear as explicit parameters: the process working directory
and STORAGE_ROOT configuration and the mime-types table in Config; the ISO
timestamp, the UUID prefix and the current clock reading as arguments of
saveBuffer. -/

/-- Ambient configuration of the service process. -/
structure Config where
  /-- process.cwd() as an absolute path. -/
  cwd : FsPath
  /-- The STORAGE_ROOT configuration value (a relative path). -/
  storageRoot : String
  /-- The mime-types lookup table, keyed by extension. -/
  mimeLookup : String → Option String

/-- The StoredFile record returned by the service. -/
structure StoredFile where
  filename : String
  originalName : String
  size : Nat
  mimeType : String
  url : String
  uploadedAt : Nat
  publicUrl : String
deriving Repr, DecidableEq

/-- Per-category aggregate of FileStatistics.fileTypes. -/
structure TypeStat where
  count : Nat
  totalSize : Nat
  percentage : ℤ
deriving Repr, DecidableEq

/-- The FileStatistics record returned by getFileStatistics.  The two maps
are association lists in JavaScript object insertion order. -/
structure FileStatistics where
  totalFiles : Nat
  totalSize : Nat
  fileTypes : List (String × TypeStat)
  sizeBreakdown : List (String × Nat)
deriving Repr, DecidableEq

/-- The error taxonomy of the spec; the code itself only ever throws
NotFoundException. -/
inductive StorageError where
  | notFound
  | invalidArgument
deriving Repr, DecidableEq

/-- resolveClientDir: path.resolve(process.cwd(), storageRoot, clientKey)
for a relative storageRoot and clientKey. -/
def resolveClientDir (cfg : Config) (clientKey : String) : FsPath :=
  normSegs (cfg.cwd ++ splitSegs cfg.storageRoot ++ splitSegs clientKey)

/-- ensureClientDir: resolves the client directory and mkdirs it
recursively. -/
def ensureClientDir (cfg : Config) (fs : FsEntry) (clientKey : String) :
    Option (FsEntry × FsPath) :=
  let dir := resolveClientDir cfg clientKey
  (mkdirRec dir fs).map (fun fs' => (fs', dir))

/-- new Date().toISOString().replace over colons and dots, as used by
generateUniqueFilename. -/
def formatTimestamp (iso : String) : String :=
  (iso.toList.map (fun c => if c = ':' ∨ c = '.' then '-' else c)).asString

/-- generateUniqueFilename: timestamp, UUID prefix and original base name
plus extension, joined with underscores. -/
def generateUniqueFilename (iso uuid : String) (originalName : String) : String :=
  let timestamp := formatTimestamp iso
  let ext := extname originalName
  let nameWithoutExt := basenameExt originalName ext
  timestamp ++ "_" ++ uuid ++ "_" ++ nameWithoutExt ++ ext

/-- parseOriginalName: split the stored name on underscores and, when at
least three tokens exist, rejoin everything after the first two. -/
def parseOriginalName (filename : String) : String :=
  let parts := splitChar '_' filename.toList
  if 3 ≤ parts.length then (joinChar '_' (parts.drop 2)).asString
  else filename

/-- getMimeType: mime.lookup of the extension, with the octet-stream
fallback. -/
def getMimeType (cfg : Config) (filename : String) : String :=
  (cfg.mimeLookup (extname filename)).getD "application/octet-stream"

/-- The relative path embedded in the record saveBuffer returns. -/
def saveRelPath (createById : Option String) (stored : String) : String :=
  match createById with
  | some u => u ++ "/" ++ stored
  | none => stored

/-- saveBuffer: ensure the client (and optional owner) directory, generate
the unique stored name, write the buffer, stat it and build the record.
The buffer is represented by its byte length. -/
def saveBuffer (cfg : Config) (fs : FsEntry) (iso uuid : String) (now : Nat)
    (clientKey originalName : String) (bufLen : Nat) (mimeType : String)
    (createById : Option String) : Option (FsEntry × StoredFile) :=
  match ensureClientDir cfg fs clientKey with
  | none => none
  | some (fs1, clientDir) =>
    let uniqueFilename := generateUniqueFilename iso uuid originalName
    let step2 : Option (FsEntry × FsPath) :=
      match createById with
      | some u =>
          (mkdirRec (joinPath clientDir u) fs1).map
            (fun fs2 => (fs2, joinPath clientDir u))
      | none => some (fs1, clientDir)
    match step2 with
    | none => none
    | some (fs2, targetDir) =>
      match writeFileAt (joinPath targetDir uniqueFilename) bufLen now fs2 with
      | none => none
      | some fs3 =>
        match statSize fs3 (joinPath targetDir uniqueFilename) with
        | none => none
        | some size =>
            some (fs3,
              { filename := uniqueFilename
                originalName := originalName
                size := size
                mimeType := mimeType
                url := "/storage/file/"
                  ++ encodeURIComponent (saveRelPath createById uniqueFilename)
                uploadedAt := now
                publicUrl := "/" ++ cfg.storageRoot ++ "/" ++ clientKey ++ "/"
                  ++ saveRelPath createById uniqueFilename })

/-- The record listFiles builds for a file lying directly in the client
directory. -/
def rootFileRecord (cfg : Config) (clientKey entry : String) (sz birth : Nat) :
    StoredFile :=
  { filename := entry
    originalName := parseOriginalName entry
    size := sz
    mimeType := getMimeType cfg entry
    url := "/storage/file/" ++ encodeURIComponent entry
    uploadedAt := birth
    publicUrl := "/" ++ cfg.storageRoot ++ "/" ++ clientKey ++ "/" ++ entry }

/-- The record listFiles builds for a file lying in an owner
subdirectory. -/
def ownedFileRecord (cfg : Config) (clientKey entry userFile : String)
    (sz birth : Nat) : StoredFile :=
  { filename := userFile
    originalName := parseOriginalName userFile
    size := sz
    mimeType := getMimeType cfg userFile
    url := "/storage/file/" ++ encodeURIComponent (entry ++ "/" ++ userFile)
    uploadedAt := birth
    publicUrl := "/" ++ cfg.storageRoot ++ "/" ++ clientKey ++ "/" ++ entry
      ++ "/" ++ userFile }

/-- The loop of listFiles over the entries of an owner subdirectory; the
enclosing try swallows a stat failure by discarding the directory. -/
def listUserDir (cfg : Config) (fs : FsEntry) (clientKey : String)
    (entryPath : FsPath) (entry : String) :
    List String → List StoredFile → Option (List StoredFile)
  | [], acc => some acc
  | userFile :: rest, acc =>
    let userFilePath := joinPath entryPath userFile
    match find? userFilePath fs with
    | some (.file sz birth) =>
        listUserDir cfg fs clientKey entryPath entry rest
          (acc ++ [ownedFileRecord cfg clientKey entry userFile sz birth])
    | some (.dir _) => listUserDir cfg fs clientKey entryPath entry rest acc
    | none => none

/-- The records listFiles collects from one owner subdirectory: read it and
walk its entries, the enclosing try discarding the directory on failure. -/
def subdirRecords (cfg : Config) (fs : FsEntry) (clientKey : String)
    (entryPath : FsPath) (entry : String) : List StoredFile :=
  match readdir? fs entryPath with
  | some userFiles =>
      (listUserDir cfg fs clientKey entryPath entry userFiles []).getD []
  | none => []

/-- The loop of listFiles over the entries of the client directory; a stat
failure aborts into the outer catch. -/
def listEntries (cfg : Config) (fs : FsEntry) (clientKey : String)
    (dir : FsPath) : List String → List StoredFile → Option (List StoredFile)
  | [], acc => some acc
  | entry :: rest, acc =>
    let entryPath := joinPath dir entry
    match find? entryPath fs with
    | some (.file sz birth) =>
        listEntries cfg fs clientKey dir rest
          (acc ++ [rootFileRecord cfg clientKey entry sz birth])
    | some (.dir _) =>
        listEntries cfg fs clientKey dir rest
          (acc ++ subdirRecords cfg fs clientKey entryPath entry)
    | none => none

/-- listFiles: enumerate the client directory, one level of owner
subdirectories deep; any uncaught failure yields the empty list. -/
def listFiles (cfg : Config) (fs : FsEntry) (clientKey : String) :
    List StoredFile :=
  let dir := resolveClientDir cfg clientKey
  match readdir? fs dir with
  | some entries => (listEntries cfg fs clientKey dir entries []).getD []
  | none => []

/-- The scan of getFilePath over the entries of the client directory,
returning the first subdirectory in which the reference names a file. -/
def findInSubdirs (fs : FsEntry) (clientDir : FsPath) (filename : String) :
    List String → Option FsPath
  | [] => none
  | entry :: rest =>
    let entryPath := joinPath clientDir entry
    if statIsDir fs entryPath then
      let potentialPath := joinPath entryPath filename
      if statIsFile fs potentialPath then some potentialPath
      else findInSubdirs fs clientDir filename rest
    else findInSubdirs fs clientDir filename rest

/-- getFilePath: try the direct path, re-try it when the reference contains
a separator, then scan the immediate subdirectories; otherwise
NotFound. -/
def getFilePath (cfg : Config) (fs : FsEntry) (clientKey filename : String) :
    Except StorageError FsPath :=
  let clientDir := resolveClientDir cfg clientKey
  let direct := joinPath clientDir filename
  if statIsFile fs direct then .ok direct
  else if ('/' ∈ filename.toList) ∧ statIsFile fs (joinPath clientDir filename)
    then .ok (joinPath clientDir filename)
  else
    match readdir? fs clientDir with
    | some entries =>
        match findInSubdirs fs clientDir filename entries with
        | some p => .ok p
        | none => .error .notFound
    | none => .error .notFound

/-- deleteFile: resolve then unlink; an unlink failure is reported as
NotFound. -/
def deleteFile (cfg : Config) (fs : FsEntry) (clientKey filename : String) :
    Except StorageError FsEntry :=
  match getFilePath cfg fs clientKey filename with
  | .error e => .error e
  | .ok filePath =>
      match unlinkAt filePath fs with
      | some fs' => .ok fs'
      | none => .error .notFound

/-- getFileInfo: resolve the path, stat it, parse the original name from
the basename of the reference, and rebuild the relative path from the
physical path; any failure becomes NotFound. -/
def getFileInfo (cfg : Config) (fs : FsEntry) (clientKey filename : String) :
    Except StorageError StoredFile :=
  match getFilePath cfg fs clientKey filename with
  | .error _ => .error .notFound
  | .ok filePath =>
      match find? filePath fs with
      | some (.file sz birth) =>
          let originalName := parseOriginalName (basenameRaw filename)
          let clientDir := resolveClientDir cfg clientKey
          let relativePath := backslashToSlash (pathRelative clientDir filePath)
          .ok
            { filename := basenameRaw filename
              originalName := originalName
              size := sz
              mimeType := getMimeType cfg filename
              url := "/storage/file/" ++ encodeURIComponent relativePath
              uploadedAt := birth
              publicUrl := "/" ++ cfg.storageRoot ++ "/" ++ clientKey ++ "/"
                ++ relativePath }
      | _ => .error .notFound

/-- Model of JavaScript s.includes(sub). -/
def includesStr (s sub : String) : Prop := sub.toList <:+: s.toList

instance (s sub : String) : Decidable (includesStr s sub) :=
  inferInstanceAs (Decidable (sub.toList <:+: s.toList))

/-- getFileTypeFromMimeType: the coarse content category of a MIME type. -/
def getFileTypeFromMimeType (mimeType : String) : String :=
  if mimeType.startsWith "image/" then "Images"
  else if mimeType.startsWith "video/" then "Videos"
  else if mimeType.startsWith "audio/" then "Audio"
  else if mimeType.startsWith "text/" then "Text"
  else if includesStr mimeType "pdf" then "PDF"
  else if includesStr mimeType "word" ∨ includesStr mimeType "document" then
    "Documents"
  else if includesStr mimeType "excel" ∨ includesStr mimeType "spreadsheet" then
    "Spreadsheets"
  else if includesStr mimeType "powerpoint"
      ∨ includesStr mimeType "presentation" then "Presentations"
  else if includesStr mimeType "zip" ∨ includesStr mimeType "rar"
      ∨ includesStr mimeType "archive" then "Archives"
  else "Other"

/-- The in-place update of the fileTypes object: create the zeroed entry
when absent, then increment the count and add the size. -/
def bumpFileType (m : List (String × TypeStat)) (k : String) (sz : Nat) :
    List (String × TypeStat) :=
  match m with
  | [] => [(k, { count := 1, totalSize := sz, percentage := 0 })]
  | (k0, v) :: rest =>
      if k0 = k then
        (k0, { v with count := v.count + 1, totalSize := v.totalSize + sz }) :: rest
      else (k0, v) :: bumpFileType rest k sz

/-- The aggregation loop of getFileStatistics over the file list. -/
def fileTypesCounts (files : List StoredFile) : List (String × TypeStat) :=
  files.foldl
    (fun m f => bumpFileType m (getFileTypeFromMimeType f.mimeType) f.size) []

/-- The percentage pass of getFileStatistics: Math.round of
count / totalFiles * 100 for every category. -/
def withPercentages (n : Nat) (m : List (String × TypeStat)) :
    List (String × TypeStat) :=
  m.map (fun kv =>
    (kv.1, { kv.2 with percentage := round (((kv.2.count : ℚ) / (n : ℚ)) * 100) }))

/-- The in-place increment of a sizeBreakdown bucket. -/
def bumpBucket (sb : List (String × Nat)) (k : String) : List (String × Nat) :=
  match sb with
  | [] => [(k, 1)]
  | (k0, v) :: rest =>
      if k0 = k then (k0, v + 1) :: rest else (k0, v) :: bumpBucket rest k

/-- The bucket a file size falls into; the float division by 1MB in the
source compares exactly like these integer comparisons. -/
def sizeBucket (sz : Nat) : String :=
  if sz < 1048576 then "0-1MB"
  else if sz < 10485760 then "1-10MB"
  else if sz < 104857600 then "10-100MB"
  else "100MB+"

/-- The size histogram loop of getFileStatistics, starting from the four
preinitialized buckets. -/
def sizeBreakdownOf (files : List StoredFile) : List (String × Nat) :=
  files.foldl (fun sb f => bumpBucket sb (sizeBucket f.size))
    [("0-1MB", 0), ("1-10MB", 0), ("10-100MB", 0), ("100MB+", 0)]

/-- getFileStatistics: list the files, return the zeroed structure when the
list is empty, otherwise aggregate totals, per-category statistics and the
size histogram. -/
def getFileStatistics (cfg : Config) (fs : FsEntry) (clientKey : String) :
    FileStatistics :=
  let files := listFiles cfg fs clientKey
  if files.length = 0 then
    { totalFiles := 0, totalSize := 0, fileTypes := [], sizeBreakdown := [] }
  else
    { totalFiles := files.length
      totalSize := files.foldl (fun sum f => sum + f.size) 0
      fileTypes := withPercentages files.length (fileTypesCounts files)
      sizeBreakdown := sizeBreakdownOf files }

/-! ### Specification-side and proof-side auxiliary definitions -/

/-- Modelled from the spec (section 4.3, resolution algorithm): try
root/clientId/reference directly, then enumerate the immediate
subdirectories of root/clientId and try root/clientId/subdir/reference for
each, returning the first match, and otherwise fail with NotFound.  In this
amended form the subdirectory scan runs for every reference, whether or not
it contains a separator. -/
def resolveSpec (cfg : Config) (fs : FsEntry) (clientKey reference : String) :
    Except StorageError FsPath :=
  let clientDir := resolveClientDir cfg clientKey
  if statIsFile fs (joinPath clientDir reference) then
    .ok (joinPath clientDir reference)
  else
    match (((readdir? fs clientDir).getD []).filterMap (fun d =>
        if statIsDir fs (joinPath clientDir d) then
          some (joinPath (joinPath clientDir d) reference)
        else none)).find? (fun p => statIsFile fs p) with
    | some p => .ok p
    | none => .error .notFound

/-- The physical locations at which getFilePath looks for a reference, in
the order it tries them. -/
def candidatePaths (cfg : Config) (fs : FsEntry) (clientKey reference : String) :
    List FsPath :=
  let clientDir := resolveClientDir cfg clientKey
  joinPath clientDir reference ::
    ((readdir? fs clientDir).getD []).filterMap (fun d =>
      if statIsDir fs (joinPath clientDir d) then
        some (joinPath (joinPath clientDir d) reference)
      else none)

/-- The sequence of records listFiles produces from the children of the
client directory, expressed directly over the children. -/
def listView (cfg : Config) (clientKey : String)
    (cs : List (String × FsEntry)) : List StoredFile :=
  cs.flatMap (fun kv =>
    match kv.2 with
    | .file sz birth => [rootFileRecord cfg clientKey kv.1 sz birth]
    | .dir inner =>
        inner.filterMap (fun kv2 =>
          match kv2.2 with
          | .file sz birth =>
              some (ownedFileRecord cfg clientKey kv.1 kv2.1 sz birth)
          | .dir _ => none))

/-- The physical path at which saveBuffer stores a file. -/
def saveTarget (cfg : Config) (clientKey : String) (createById : Option String)
    (stored : String) : FsPath :=
  resolveClientDir cfg clientKey ++
    (match createById with
     | some u => [u, stored]
     | none => [stored])

/-- The record listFiles later produces for a file saveBuffer stored. -/
def saveListRecord (cfg : Config) (clientKey : String)
    (createById : Option String) (stored : String) (sz t : Nat) : StoredFile :=
  match createById with
  | some u => ownedFileRecord cfg clientKey u stored sz t
  | none => rootFileRecord cfg clientKey stored sz t

/-! ### Concrete fixtures -/

/-- A concrete configuration: storage root "storage" under the filesystem
root, no mime table entries. -/
def cfgW : Config := { cwd := [], storageRoot := "storage", mimeLookup := fun _ => none }

/-- A concrete ISO timestamp as produced by Date.prototype.toISOString. -/
def isoW : String := "2024-01-01T00:00:00.000Z"

/-- A concrete eight-character UUID prefix. -/
def uuidW : String := "abcd1234"

/-- Fixture for traversal: client c1 plus a stray file at storage/secret. -/
def fsC2 : FsEntry :=
  .dir [("storage", .dir
    [("c1", .dir [("a.txt", .file 1 0)]), ("secret", .file 3 0)])]

/-- Fixture for the resolution scan: the reference u42/f.txt exists only two
levels below a subdirectory of the client directory. -/
def fsC3 : FsEntry :=
  .dir [("storage", .dir [("c1", .dir
    [("sub", .dir [("u42", .dir [("f.txt", .file 1 0)])])])])]

/-- Fixture for deletion: the same bare name exists both directly in the
client directory and in an owner subdirectory. -/
def fsC4 : FsEntry :=
  .dir [("storage", .dir [("c1", .dir
    [("f.txt", .file 2 0), ("u1", .dir [("f.txt", .file 3 0)])])])]

/-- The filesystem fsC4 leaves behind after deleting the direct f.txt. -/
def fsC4del : FsEntry :=
  .dir [("storage", .dir [("c1", .dir
    [("u1", .dir [("f.txt", .file 3 0)])])])]

/-- Fixture for getFileInfo: an owner-scoped stored name containing a
backslash. -/
def fsC6 : FsEntry :=
  .dir [("storage", .dir [("c1", .dir
    [("u42", .dir [("ts_ab_x\\y.txt", .file 5 0)])])])]

/-- The filesystem produced by saving a backslash-named file for client c1
with no owner. -/
def fsC7 : FsEntry :=
  .dir [("storage", .dir [("c1", .dir
    [("2024-01-01T00-00-00-000Z_abcd1234_a\\b.txt", .file 5 7)])])]

/-- The record saveBuffer returns for that save. -/
def recC7 : StoredFile :=
  { filename := "2024-01-01T00-00-00-000Z_abcd1234_a\\b.txt"
    originalName := "a\\b.txt"
    size := 5
    mimeType := "text/plain"
    url := "/storage/file/2024-01-01T00-00-00-000Z_abcd1234_a%5Cb.txt"
    uploadedAt := 7
    publicUrl := "/storage/c1/2024-01-01T00-00-00-000Z_abcd1234_a\\b.txt" }

/-- A one-file client namespace used to instantiate the statistics
theorems. -/
def fsW3 : FsEntry :=
  .dir [("storage", .dir [("c1", .dir [("x.bin", .file 5 3)])])]

/-- The filesystem produced by saving report.pdf for client c1 with owner
u42, starting from an empty filesystem. -/
def fsW1 : FsEntry :=
  .dir [("storage", .dir [("c1", .dir
    [("u42", .dir
      [("2024-01-01T00-00-00-000Z_abcd1234_report.pdf", .file 5 7)])])])]

/-- The record saveBuffer returns for that save. -/
def recW1 : StoredFile :=
  { filename := "2024-01-01T00-00-00-000Z_abcd1234_report.pdf"
    originalName := "report.pdf"
    size := 5
    mimeType := "application/pdf"
    url := "/storage/file/u42%2F2024-01-01T00-00-00-000Z_abcd1234_report.pdf"
    uploadedAt := 7
    publicUrl := "/storage/c1/u42/2024-01-01T00-00-00-000Z_abcd1234_report.pdf" }

/-- A client namespace holding the reference g.txt at exactly one
location. -/
def fsW4 : FsEntry :=
  .dir [("storage", .dir [("c1", .dir [("g.txt", .file 2 0)])])]

/-- The filesystem fsW4 leaves behind after deleting g.txt. -/
def fsW4del : FsEntry :=
  .dir [("storage", .dir [("c1", .dir [])])]

/-- An owner-scoped stored file with a backslash-free stored name. -/
def fsW6 : FsEntry :=
  .dir [("storage", .dir [("c1", .dir
    [("u42", .dir [("t_a_f.txt", .file 5 3)])])])]

/-- The filesystem produced by saving doc.txt for client c1 with no owner,
starting from an empty filesystem. -/
def fsW7 : FsEntry :=
  .dir [("storage", .dir [("c1", .dir
    [("2024-01-01T00-00-00-000Z_abcd1234_doc.txt", .file 5 7)])])]

/-- The record saveBuffer returns for that save. -/
def recW7 : StoredFile :=
  { filename := "2024-01-01T00-00-00-000Z_abcd1234_doc.txt"
    originalName := "doc.txt"
    size := 5
    mimeType := "text/plain"
    url := "/storage/file/2024-01-01T00-00-00-000Z_abcd1234_doc.txt"
    uploadedAt := 7
    publicUrl := "/storage/c1/2024-01-01T00-00-00-000Z_abcd1234_doc.txt" }

/-! ## Lemmas about the string primitives -/

theorem splitChar_nil (sep : Char) : splitChar sep [] = [[]] := rfl

theorem splitChar_cons_sep (sep : Char) (l : List Char) :
    splitChar sep (sep :: l) = [] :: splitChar sep l := by
  simp [splitChar]

theorem splitChar_cons_ne (sep c : Char) (l : List Char) (h : c ≠ sep) :
    splitChar sep (c :: l) =
      (c :: (splitChar sep l).headI) :: (splitChar sep l).tail := by
  simp [splitChar, h]

theorem splitChar_ne_nil (sep : Char) (l : List Char) : splitChar sep l ≠ [] := by
  cases l with
  | nil => simp [splitChar]
  | cons c rest =>
    by_cases h : c = sep
    · subst h; rw [splitChar_cons_sep]; simp
    · rw [splitChar_cons_ne sep c rest h]; simp

theorem splitChar_no_sep (sep : Char) (l : List Char) (h : sep ∉ l) :
    splitChar sep l = [l] := by
  induction l with
  | nil => rfl
  | cons c rest ih =>
    have hc : c ≠ sep := fun hcs => h (hcs ▸ List.mem_cons_self c rest)
    have hrest : sep ∉ rest := fun hm => h (List.mem_cons_of_mem c hm)
    rw [splitChar_cons_ne sep c rest hc, ih hrest]
    simp

theorem splitChar_append_sep (sep : Char) (a l : List Char) (h : sep ∉ a) :
    splitChar sep (a ++ sep :: l) = a :: splitChar sep l := by
  induction a with
  | nil => simpa using splitChar_cons_sep sep l
  | cons c rest ih =>
    have hc : c ≠ sep := fun hcs => h (hcs ▸ List.mem_cons_self c rest)
    have hrest : sep ∉ rest := fun hm => h (List.mem_cons_of_mem c hm)
    rw [List.cons_append, splitChar_cons_ne sep c _ hc, ih hrest]
    simp

theorem mem_splitChar_no_sep (sep : Char) (l : List Char) :
    ∀ p ∈ splitChar sep l, sep ∉ p := by
  induction l with
  | nil =>
    intro p hp
    simp [splitChar] at hp
    simp [hp]
  | cons c rest ih =>
    by_cases hc : c = sep
    · subst hc
      rw [splitChar_cons_sep]
      intro p hp
      rcases List.mem_cons.mp hp with h | h
      · simp [h]
      · exact ih p h
    · rw [splitChar_cons_ne sep c rest hc]
      obtain ⟨x, xs, hx⟩ := List.exists_cons_of_ne_nil (splitChar_ne_nil sep rest)
      rw [hx]
      intro p hp
      rcases List.mem_cons.mp hp with h | h
      · subst h
        simp only [List.headI]
        intro hmem
        rcases List.mem_cons.mp hmem with h' | h'
        · exact hc h'.symm
        · exact ih x (hx ▸ List.mem_cons_self x xs) h'
      · exact ih p (hx ▸ List.mem_cons_of_mem x (by simpa using h))

theorem joinChar_splitChar (sep : Char) (l : List Char) :
    joinChar sep (splitChar sep l) = l := by
  induction l with
  | nil => rfl
  | cons c rest ih =>
    obtain ⟨x, xs, hx⟩ := List.exists_cons_of_ne_nil (splitChar_ne_nil sep rest)
    by_cases hc : c = sep
    · subst hc
      rw [splitChar_cons_sep, hx]
      rw [hx] at ih
      show joinChar c ([] :: x :: xs) = c :: rest
      rw [joinChar]
      simpa using ih
    · rw [splitChar_cons_ne sep c rest hc, hx]
      rw [hx] at ih
      simp only [List.headI, List.tail_cons]
      cases xs with
      | nil =>
        show (c :: x : List Char) = c :: rest
        simpa using ih
      | cons y ys =>
        show (c :: x) ++ sep :: joinChar sep (y :: ys) = c :: rest
        rw [joinChar] at ih
        simpa using ih

theorem splitChar_length (sep : Char) (l : List Char) :
    (splitChar sep l).length = l.count sep + 1 := by
  induction l with
  | nil => simp [splitChar]
  | cons c rest ih =>
    by_cases hc : c = sep
    · subst hc
      rw [splitChar_cons_sep]
      simp [ih, List.count_cons]
    · rw [splitChar_cons_ne sep c rest hc]
      have hne := splitChar_ne_nil sep rest
      have hlen : (splitChar sep rest).length ≠ 0 := by
        simpa [List.length_eq_zero] using hne
      simp only [List.length_cons, List.length_tail]
      rw [List.count_cons]
      simp [hc]
      omega

theorem toList_asString (l : List Char) : (List.asString l).toList = l := rfl

theorem asString_toList (s : String) : s.toList.asString = s := rfl

theorem asString_data (s : String) : List.asString s.data = s := rfl

theorem toList_append (a b : String) :
    (a ++ b).toList = a.toList ++ b.toList := rfl

/-! ## Lemmas about segments and normalization -/

/-- Every element of a segment list is a plain segment. -/
def plainList (l : List String) : Prop := ∀ s ∈ l, isPlainSeg s

instance (l : List String) : Decidable (plainList l) :=
  inferInstanceAs (Decidable (∀ s ∈ l, isPlainSeg s))

theorem normFrom_append (acc : List String) (l m : List String) :
    normFrom acc (l ++ m) = normFrom (normFrom acc l) m := by
  induction l generalizing acc with
  | nil => rfl
  | cons s rest ih => simp [normFrom, ih]

theorem normFrom_plain (acc m : List String) (h : plainList m) :
    normFrom acc m = acc ++ m := by
  induction m generalizing acc with
  | nil => simp [normFrom]
  | cons s rest ih =>
    have hs := h s (List.mem_cons_self s rest)
    have hrest : plainList rest := fun t ht => h t (List.mem_cons_of_mem s ht)
    rw [normFrom, normStep, if_neg, if_neg hs.2.2, ih _ hrest]
    · simp
    · rcases hs with ⟨h1, h2, _⟩
      simp [h1, h2]

theorem plainList_normStep (acc : List String) (s : String)
    (h : plainList acc) : plainList (normStep acc s) := by
  unfold normStep
  split
  · exact h
  · split
    · exact fun t ht => h t (List.dropLast_subset acc ht)
    · intro t ht
      rcases List.mem_append.mp ht with h' | h'
      · exact h t h'
      · rcases List.mem_singleton.mp h' with rfl
        rename_i h1 h2
        refine ⟨?_, ?_, h2⟩
        · intro he; exact h1 (Or.inl he)
        · intro he; exact h1 (Or.inr he)

theorem plainList_normFrom (acc l : List String) (h : plainList acc) :
    plainList (normFrom acc l) := by
  induction l generalizing acc with
  | nil => exact h
  | cons s rest ih => exact ih _ (plainList_normStep acc s h)

theorem plainList_normSegs (l : List String) : plainList (normSegs l) :=
  plainList_normFrom [] l (by intro s hs; cases hs)

theorem normSegs_absorb (d m : List String) (h : plainList d) :
    normSegs (d ++ m) = normFrom d m := by
  unfold normSegs
  rw [normFrom_append, normFrom_plain [] d h]
  simp

theorem splitSegs_single (s : String) (h : '/' ∉ s.toList) :
    splitSegs s = [s] := by
  unfold splitSegs
  rw [splitChar_no_sep '/' s.toList h]
  simp [asString_toList, asString_data]

theorem mem_splitSegs_no_slash (s : String) :
    ∀ t ∈ splitSegs s, '/' ∉ t.toList := by
  unfold splitSegs
  intro t ht
  obtain ⟨p, hp, hpt⟩ := List.mem_map.mp ht
  subst hpt
  rw [toList_asString]
  exact mem_splitChar_no_sep '/' s.toList p hp

theorem joinPath_plain (D : FsPath) (rel : String) (hD : plainList D)
    (hrel : plainList (splitSegs rel)) :
    joinPath D rel = D ++ splitSegs rel := by
  unfold joinPath
  rw [normSegs_absorb D _ hD, normFrom_plain D _ hrel]

theorem joinPath_single (D : FsPath) (s : String) (hD : plainList D)
    (hs : validName s) : joinPath D s = D ++ [s] := by
  rw [← splitSegs_single s hs.2]
  exact joinPath_plain D s hD (by
    intro t ht
    rw [splitSegs_single s hs.2] at ht
    rcases List.mem_singleton.mp ht with rfl
    exact hs.1)

theorem splitSegs_pair (a b : String) (ha : '/' ∉ a.toList)
    (hb : '/' ∉ b.toList) : splitSegs (a ++ "/" ++ b) = [a, b] := by
  unfold splitSegs
  have : (a ++ "/" ++ b).toList = a.toList ++ '/' :: b.toList := by
    rw [toList_append, toList_append, List.append_assoc]
    rfl
  rw [this, splitChar_append_sep '/' _ _ ha, splitChar_no_sep '/' _ hb]
  simp [asString_toList, asString_data]

theorem joinPath_pair (D : FsPath) (a b : String) (hD : plainList D)
    (ha : validName a) (hb : validName b) :
    joinPath D (a ++ "/" ++ b) = D ++ [a, b] := by
  unfold joinPath
  rw [splitSegs_pair a b ha.2 hb.2, normSegs_absorb D _ hD,
    normFrom_plain D _ ?_]
  intro t ht
  rcases List.mem_cons.mp ht with rfl | ht'
  · exact ha.1
  · rcases List.mem_singleton.mp ht' with rfl
    exact hb.1

/-! ## Lemmas about the filesystem tree -/

theorem lookupChild_eq_none (cs : List (String × FsEntry)) (s : String) :
    lookupChild cs s = none ↔ s ∉ childKeys cs := by
  induction cs with
  | nil => simp [lookupChild, childKeys]
  | cons kv rest ih =>
    obtain ⟨k, v⟩ := kv
    by_cases hk : k = s
    · subst hk
      simp [lookupChild, childKeys]
    · simp [lookupChild, hk, childKeys] at ih ⊢
      rw [← ih]
      simp [Ne.symm hk]

theorem lookupChild_mem (cs : List (String × FsEntry)) (s : String)
    (v : FsEntry) (h : lookupChild cs s = some v) : (s, v) ∈ cs := by
  induction cs with
  | nil => simp [lookupChild] at h
  | cons kv rest ih =>
    obtain ⟨k, w⟩ := kv
    by_cases hk : k = s
    · subst hk
      simp [lookupChild] at h
      subst h
      exact List.mem_cons_self _ _
    · simp [lookupChild, hk] at h
      exact List.mem_cons_of_mem _ (ih h)

theorem lookupChild_of_mem_nodup (cs : List (String × FsEntry))
    (hnd : (childKeys cs).Nodup) :
    ∀ kv ∈ cs, lookupChild cs kv.1 = some kv.2 := by
  induction cs with
  | nil => intro kv hkv; cases hkv
  | cons kw rest ih =>
    obtain ⟨k, w⟩ := kw
    rw [childKeys, List.map_cons] at hnd
    obtain ⟨hknotmem, hnd'⟩ := List.nodup_cons.mp hnd
    intro kv hkv
    rcases List.mem_cons.mp hkv with rfl | hkv'
    · simp [lookupChild]
    · have hk : k ≠ kv.1 := by
        intro he
        exact hknotmem (he ▸ List.mem_map.mpr ⟨kv, hkv', rfl⟩)
      simp only [lookupChild]
      rw [if_neg hk]
      exact ih hnd' kv hkv'

theorem lookupChild_append_left (cs ds : List (String × FsEntry)) (s : String)
    (v : FsEntry) (h : lookupChild cs s = some v) :
    lookupChild (cs ++ ds) s = some v := by
  induction cs with
  | nil => simp [lookupChild] at h
  | cons kv rest ih =>
    obtain ⟨k, w⟩ := kv
    by_cases hk : k = s
    · subst hk; simp [lookupChild] at h ⊢; exact h
    · simp [lookupChild, hk] at h ⊢; exact ih h

theorem lookupChild_append_right (cs ds : List (String × FsEntry)) (s : String)
    (h : lookupChild cs s = none) :
    lookupChild (cs ++ ds) s = lookupChild ds s := by
  induction cs with
  | nil => simp
  | cons kv rest ih =>
    obtain ⟨k, w⟩ := kv
    by_cases hk : k = s
    · subst hk; simp [lookupChild] at h
    · simp [lookupChild, hk] at h ⊢; exact ih h

theorem lookupChild_setChild_self (cs : List (String × FsEntry)) (s : String)
    (e : FsEntry) : lookupChild (setChild cs s e) s = some e := by
  induction cs with
  | nil => simp [setChild, lookupChild]
  | cons kv rest ih =>
    obtain ⟨k, v⟩ := kv
    by_cases hk : k = s
    · subst hk; simp [setChild, lookupChild]
    · simp [setChild, lookupChild, hk]; exact ih

theorem lookupChild_setChild_ne (cs : List (String × FsEntry)) (s t : String)
    (e : FsEntry) (h : t ≠ s) :
    lookupChild (setChild cs s e) t = lookupChild cs t := by
  induction cs with
  | nil => simp [setChild, lookupChild, Ne.symm h]
  | cons kv rest ih =>
    obtain ⟨k, v⟩ := kv
    by_cases hk : k = s
    · subst hk; simp [setChild, lookupChild, Ne.symm h]
    · by_cases hkt : k = t
      · subst hkt; simp [setChild, lookupChild, hk]
      · simp [setChild, lookupChild, hk, hkt]; exact ih

theorem setChild_self (cs : List (String × FsEntry)) (s : String)
    (v : FsEntry) (h : lookupChild cs s = some v) : setChild cs s v = cs := by
  induction cs with
  | nil => simp [lookupChild] at h
  | cons kv rest ih =>
    obtain ⟨k, w⟩ := kv
    by_cases hk : k = s
    · subst hk
      simp [lookupChild] at h
      subst h
      simp [setChild]
    · simp [lookupChild, hk] at h
      simp [setChild, hk]
      exact ih h

theorem setChild_absent (cs : List (String × FsEntry)) (s : String)
    (e : FsEntry) (h : lookupChild cs s = none) :
    setChild cs s e = cs ++ [(s, e)] := by
  induction cs with
  | nil => simp [setChild]
  | cons kv rest ih =>
    obtain ⟨k, v⟩ := kv
    by_cases hk : k = s
    · subst hk; simp [lookupChild] at h
    · simp [lookupChild, hk] at h
      simp [setChild, hk]
      exact ih h

theorem childKeys_setChild_present (cs : List (String × FsEntry)) (s : String)
    (e v : FsEntry) (h : lookupChild cs s = some v) :
    childKeys (setChild cs s e) = childKeys cs := by
  induction cs with
  | nil => simp [lookupChild] at h
  | cons kv rest ih =>
    obtain ⟨k, w⟩ := kv
    by_cases hk : k = s
    · subst hk; simp [setChild, childKeys]
    · simp [lookupChild, hk] at h
      simp [setChild, childKeys, hk] at ih ⊢
      exact ih h

theorem lookupChild_removeChild_self (cs : List (String × FsEntry))
    (s : String) : lookupChild (removeChild cs s) s = none := by
  induction cs with
  | nil => simp [removeChild, lookupChild]
  | cons kv rest ih =>
    obtain ⟨k, v⟩ := kv
    by_cases hk : k = s
    · rw [removeChild, if_pos hk]
      exact ih
    · rw [removeChild, if_neg hk]
      simp only [lookupChild]
      rw [if_neg hk]
      exact ih

theorem lookupChild_removeChild_ne (cs : List (String × FsEntry)) (s t : String)
    (h : t ≠ s) :
    lookupChild (removeChild cs s) t = lookupChild cs t := by
  induction cs with
  | nil => simp [removeChild]
  | cons kv rest ih =>
    obtain ⟨k, v⟩ := kv
    by_cases hk : k = s
    · subst hk
      rw [removeChild, if_pos rfl, ih]
      simp only [lookupChild]
      rw [if_neg (Ne.symm h)]
    · rw [removeChild, if_neg hk]
      by_cases hkt : k = t
      · subst hkt
        simp [lookupChild]
      · simp only [lookupChild]
        rw [if_neg hkt, if_neg hkt]
        exact ih

theorem mem_removeChild (cs : List (String × FsEntry)) (s : String) :
    ∀ kv ∈ removeChild cs s, kv ∈ cs := by
  induction cs with
  | nil => simp [removeChild]
  | cons kw rest ih =>
    obtain ⟨k, v⟩ := kw
    intro kv hkv
    by_cases hk : k = s
    · rw [removeChild, if_pos hk] at hkv
      exact List.mem_cons_of_mem _ (ih kv hkv)
    · rw [removeChild, if_neg hk] at hkv
      rcases List.mem_cons.mp hkv with rfl | h'
      · exact List.mem_cons_self _ _
      · exact List.mem_cons_of_mem _ (ih kv h')

theorem childKeys_removeChild_subset (cs : List (String × FsEntry))
    (s : String) : childKeys (removeChild cs s) ⊆ childKeys cs := by
  intro t ht
  obtain ⟨kv, hkv, rfl⟩ := List.mem_map.mp ht
  exact List.mem_map.mpr ⟨kv, mem_removeChild cs s kv hkv, rfl⟩

theorem find?_append (p q : List String) (e : FsEntry) :
    find? (p ++ q) e = (find? p e).bind (fun e' => find? q e') := by
  induction p generalizing e with
  | nil => simp [find?]
  | cons s rest ih =>
    cases e with
    | file sz b => simp [find?]
    | dir cs =>
      simp only [List.cons_append, find?]
      cases lookupChild cs s with
      | none => simp
      | some c => exact ih c

/-- Decomposition of a path-indexed filesystem operation across an existing
prefix: what the operation does below a node is what it does to the
subtree rooted there. -/
theorem op_decompose (OP : List String → FsEntry → Option FsEntry)
    (hop : ∀ s rest cs c, rest ≠ [] → lookupChild cs s = some c →
      OP (s :: rest) (.dir cs) =
        (OP rest c).map (fun x => FsEntry.dir (setChild cs s x))) :
    ∀ (p q : List String) (fs e fs' : FsEntry), q ≠ [] →
      find? p fs = some e → OP (p ++ q) fs = some fs' →
      ∃ e', OP q e = some e' ∧ find? p fs' = some e' := by
  intro p
  induction p with
  | nil =>
    intro q fs e fs' hq hfind hop'
    simp [find?] at hfind
    subst hfind
    exact ⟨fs', hop', rfl⟩
  | cons s rest ih =>
    intro q fs e fs' hq hfind hopq
    cases fs with
    | file sz b => simp [find?] at hfind
    | dir cs =>
      simp only [find?] at hfind
      cases hc : lookupChild cs s with
      | none => rw [hc] at hfind; simp at hfind
      | some c =>
        rw [hc] at hfind
        rw [List.cons_append,
          hop s (rest ++ q) cs c (by simp [hq]) hc] at hopq
        rcases Option.map_eq_some'.mp hopq with ⟨c', hc', rfl⟩
        obtain ⟨e', he', hfind'⟩ := ih q c e c' hq hfind hc'
        refine ⟨e', he', ?_⟩
        simp only [find?]
        rw [lookupChild_setChild_self]
        exact hfind'

theorem mkdirRec_hop (s : String) (rest : List String)
    (cs : List (String × FsEntry)) (c : FsEntry) (_ : rest ≠ [])
    (hc : lookupChild cs s = some c) :
    mkdirRec (s :: rest) (.dir cs) =
      (mkdirRec rest c).map (fun x => FsEntry.dir (setChild cs s x)) := by
  simp [mkdirRec, hc]

theorem writeFileAt_hop (sz t : Nat) (s : String) (rest : List String)
    (cs : List (String × FsEntry)) (c : FsEntry) (hrest : rest ≠ [])
    (hc : lookupChild cs s = some c) :
    writeFileAt (s :: rest) sz t (.dir cs) =
      (writeFileAt rest sz t c).map (fun x => FsEntry.dir (setChild cs s x)) := by
  cases rest with
  | nil => exact absurd rfl hrest
  | cons r rs => simp [writeFileAt, hc]

theorem unlinkAt_hop (s : String) (rest : List String)
    (cs : List (String × FsEntry)) (c : FsEntry) (hrest : rest ≠ [])
    (hc : lookupChild cs s = some c) :
    unlinkAt (s :: rest) (.dir cs) =
      (unlinkAt rest c).map (fun x => FsEntry.dir (setChild cs s x)) := by
  cases rest with
  | nil => exact absurd rfl hrest
  | cons r rs => simp [unlinkAt, hc]

/-- find? below an empty directory yields the directory itself or
nothing. -/
theorem find?_emptyDir (p : List String) (e : FsEntry)
    (h : find? p (.dir []) = some e) : p = [] ∧ e = .dir [] := by
  cases p with
  | nil => simp [find?] at h; simp [h.symm]
  | cons s rest => simp [find?, lookupChild] at h

/-- What mkdirRec leaves at its target: the directory that was already
there, or a fresh empty one when nothing was. -/
theorem mkdirRec_find? : ∀ (p : List String) (fs fs' : FsEntry),
    mkdirRec p fs = some fs' →
    ∃ cs, find? p fs' = some (.dir cs) ∧
      (find? p fs = some (.dir cs) ∨ (find? p fs = none ∧ cs = [])) := by
  intro p
  induction p with
  | nil =>
    intro fs fs' h
    cases fs with
    | file sz b => simp [mkdirRec] at h
    | dir cs =>
      simp [mkdirRec] at h
      subst h
      exact ⟨cs, rfl, Or.inl rfl⟩
  | cons s rest ih =>
    intro fs fs' h
    cases fs with
    | file sz b => simp [mkdirRec] at h
    | dir cs =>
      simp only [mkdirRec] at h
      cases hc : lookupChild cs s with
      | some c =>
        rw [hc] at h
        rcases Option.map_eq_some'.mp h with ⟨c', hc', rfl⟩
        obtain ⟨cs'', hfind'', hrel⟩ := ih c c' hc'
        refine ⟨cs'', ?_, ?_⟩
        · simp only [find?]
          rw [lookupChild_setChild_self]
          exact hfind''
        · simp only [find?]
          rw [hc]
          exact hrel
      | none =>
        rw [hc] at h
        rcases Option.map_eq_some'.mp h with ⟨c', hc', rfl⟩
        obtain ⟨cs'', hfind'', hrel⟩ := ih (.dir []) c' hc'
        have hcs'' : cs'' = [] := by
          rcases hrel with h' | h'
          · obtain ⟨-, he⟩ := find?_emptyDir rest _ h'
            injection he
          · exact h'.2
        subst hcs''
        refine ⟨[], ?_, Or.inr ⟨?_, rfl⟩⟩
        · simp only [find?]
          rw [lookupChild_append_right cs _ s hc]
          simp [lookupChild]
          exact hfind''
        · simp only [find?]
          rw [hc]

theorem statIsFile_iff (fs : FsEntry) (p : FsPath) :
    statIsFile fs p = true ↔ ∃ sz b, find? p fs = some (.file sz b) := by
  unfold statIsFile
  cases h : find? p fs with
  | none => simp
  | some e =>
    cases e with
    | file sz b => simp
    | dir cs => simp

theorem statIsDir_iff (fs : FsEntry) (p : FsPath) :
    statIsDir fs p = true ↔ ∃ cs, find? p fs = some (.dir cs) := by
  unfold statIsDir
  cases h : find? p fs with
  | none => simp
  | some e =>
    cases e with
    | file sz b => simp
    | dir cs => simp

/-- What survives an unlink: every node of the new tree was already present,
except that directories along the deleted file's path may have lost
entries; the deleted path itself is gone. -/
theorem unlink_find? : ∀ (p : List String) (fs fs' : FsEntry),
    unlinkAt p fs = some fs' → ∀ (q : List String) (e' : FsEntry),
    find? q fs' = some e' →
    ∃ e, find? q fs = some e ∧
      ((e' = e ∧ q ≠ p) ∨
        (∃ cs cs', e = .dir cs ∧ e' = .dir cs' ∧ childKeys cs' ⊆ childKeys cs)) := by
  intro p
  induction p with
  | nil => intro fs fs' h; simp [unlinkAt] at h
  | cons s rest ih =>
    intro fs fs' h q e' hq
    cases fs with
    | file sz b => cases rest <;> simp [unlinkAt] at h
    | dir cs =>
      cases rest with
      | nil =>
        simp only [unlinkAt] at h
        cases hc : lookupChild cs s with
        | none => rw [hc] at h; simp at h
        | some c =>
          rw [hc] at h
          cases c with
          | dir inner => simp at h
          | file z b =>
            simp only [Option.some.injEq] at h
            subst h
            cases q with
            | nil =>
              simp only [find?, Option.some.injEq] at hq
              refine ⟨.dir cs, rfl,
                Or.inr ⟨cs, removeChild cs s, rfl, hq.symm, ?_⟩⟩
              exact childKeys_removeChild_subset cs s
            | cons t qs =>
              simp only [find?] at hq
              by_cases hts : t = s
              · subst hts
                rw [lookupChild_removeChild_self] at hq
                simp at hq
              · rw [lookupChild_removeChild_ne cs s t hts] at hq
                cases hct : lookupChild cs t with
                | none => rw [hct] at hq; simp at hq
                | some c2 =>
                  rw [hct] at hq
                  refine ⟨e', ?_, Or.inl ⟨rfl, ?_⟩⟩
                  · simp only [find?]
                    rw [hct]
                    exact hq
                  · intro he
                    injection he with h1 h2
                    exact hts h1
      | cons r rs =>
        cases hc : lookupChild cs s with
        | none => simp [unlinkAt, hc] at h
        | some c =>
          rw [unlinkAt_hop s (r :: rs) cs c (by simp) hc] at h
          rcases Option.map_eq_some'.mp h with ⟨c', hc', rfl⟩
          cases q with
          | nil =>
            simp only [find?, Option.some.injEq] at hq
            refine ⟨.dir cs, rfl,
              Or.inr ⟨cs, setChild cs s c', rfl, hq.symm, ?_⟩⟩
            rw [childKeys_setChild_present cs s c' c hc]
            exact List.Subset.refl _
          | cons t qs =>
            simp only [find?] at hq
            by_cases hts : t = s
            · subst hts
              rw [lookupChild_setChild_self] at hq
              obtain ⟨e, he, hshape⟩ := ih c c' hc' qs e' hq
              refine ⟨e, ?_, ?_⟩
              · simp only [find?]
                rw [hc]
                exact he
              · rcases hshape with ⟨h1, h2⟩ | ⟨cs1, cs2, h1, h2, h3⟩
                · exact Or.inl ⟨h1, by
                    intro he'
                    injection he' with _ h2'
                    exact h2 h2'⟩
                · exact Or.inr ⟨cs1, cs2, h1, h2, h3⟩
            · rw [lookupChild_setChild_ne cs s t c' hts] at hq
              cases hct : lookupChild cs t with
              | none => rw [hct] at hq; simp at hq
              | some c2 =>
                rw [hct] at hq
                refine ⟨e', ?_, Or.inl ⟨rfl, ?_⟩⟩
                · simp only [find?]
                  rw [hct]
                  exact hq
                · intro he
                  injection he with h1 h2
                  exact hts h1

theorem unlink_statIsFile (p : List String) (fs fs' : FsEntry)
    (h : unlinkAt p fs = some fs') (q : FsPath)
    (hq : statIsFile fs' q = true) : statIsFile fs q = true ∧ q ≠ p := by
  obtain ⟨sz, b, hfind⟩ := (statIsFile_iff fs' q).mp hq
  obtain ⟨e, he, hshape⟩ := unlink_find? p fs fs' h q _ hfind
  rcases hshape with ⟨h1, h2⟩ | ⟨cs1, cs2, h1, h2, -⟩
  · subst h1
    exact ⟨(statIsFile_iff fs q).mpr ⟨sz, b, he⟩, h2⟩
  · cases h2

theorem unlink_statIsDir (p : List String) (fs fs' : FsEntry)
    (h : unlinkAt p fs = some fs') (q : FsPath)
    (hq : statIsDir fs' q = true) : statIsDir fs q = true := by
  obtain ⟨cs', hfind⟩ := (statIsDir_iff fs' q).mp hq
  obtain ⟨e, he, hshape⟩ := unlink_find? p fs fs' h q _ hfind
  rcases hshape with ⟨h1, -⟩ | ⟨cs1, cs2, h1, -, -⟩
  · subst h1
    exact (statIsDir_iff fs q).mpr ⟨cs', he⟩
  · subst h1
    exact (statIsDir_iff fs q).mpr ⟨cs1, he⟩

theorem unlink_find?_self (p : List String) (fs fs' : FsEntry)
    (h : unlinkAt p fs = some fs') : statIsFile fs' p = false := by
  cases hq : statIsFile fs' p with
  | false => rfl
  | true =>
    obtain ⟨-, hne⟩ := unlink_statIsFile p fs fs' h p hq
    exact absurd rfl hne

theorem unlink_readdir_subset (p : List String) (fs fs' : FsEntry)
    (h : unlinkAt p fs = some fs') (q : FsPath) (d : String)
    (hd : d ∈ (readdir? fs' q).getD []) : d ∈ (readdir? fs q).getD [] := by
  unfold readdir? at hd
  cases hfind : find? q fs' with
  | none => rw [hfind] at hd; simp at hd
  | some e' =>
    rw [hfind] at hd
    cases e' with
    | file sz b => simp at hd
    | dir cs' =>
      simp at hd
      obtain ⟨e, he, hshape⟩ := unlink_find? p fs fs' h q _ hfind
      unfold readdir?
      rw [he]
      rcases hshape with ⟨h1, -⟩ | ⟨cs1, cs2, h1, h2, h3⟩
      · rw [← h1]
        simpa using hd
      · subst h1
        injection h2 with h2'
        subst h2'
        simpa using h3 hd

/-! ## The resolution algorithm of getFilePath -/

theorem findInSubdirs_eq (fs : FsEntry) (D : FsPath) (ref : String)
    (entries : List String) :
    findInSubdirs fs D ref entries =
      (entries.filterMap (fun d =>
        if statIsDir fs (joinPath D d) then
          some (joinPath (joinPath D d) ref)
        else none)).find? (fun p => statIsFile fs p) := by
  induction entries with
  | nil => rfl
  | cons d rest ih =>
    simp only [findInSubdirs, List.filterMap_cons]
    by_cases hdir : statIsDir fs (joinPath D d) = true
    · rw [if_pos hdir, if_pos hdir]
      by_cases hfile : statIsFile fs (joinPath (joinPath D d) ref) = true
      · rw [if_pos hfile, List.find?_cons_of_pos _ hfile]
      · rw [if_neg hfile, List.find?_cons_of_neg _ (by simpa using hfile), ih]
    · rw [if_neg hdir, if_neg hdir, ih]

theorem getFilePath_eq_resolveSpec (cfg : Config) (fs : FsEntry)
    (clientKey reference : String) :
    getFilePath cfg fs clientKey reference =
      resolveSpec cfg fs clientKey reference := by
  unfold getFilePath resolveSpec
  by_cases hdirect :
      statIsFile fs (joinPath (resolveClientDir cfg clientKey) reference) = true
  · rw [if_pos hdirect, if_pos hdirect]
  · rw [if_neg hdirect, if_neg hdirect,
      if_neg (by
        intro hand
        exact hdirect hand.2)]
    cases hrd : readdir? fs (resolveClientDir cfg clientKey) with
    | none => simp
    | some entries =>
      simp only [Option.getD_some]
      rw [findInSubdirs_eq]

theorem resolveSpec_eq_firstMatch (cfg : Config) (fs : FsEntry)
    (clientKey reference : String) :
    resolveSpec cfg fs clientKey reference =
      match (candidatePaths cfg fs clientKey reference).find?
          (fun p => statIsFile fs p) with
      | some p => .ok p
      | none => .error .notFound := by
  unfold resolveSpec candidatePaths
  by_cases hdirect :
      statIsFile fs (joinPath (resolveClientDir cfg clientKey) reference) = true
  · rw [if_pos hdirect, List.find?_cons_of_pos _ hdirect]
  · rw [if_neg hdirect, List.find?_cons_of_neg _ (by simpa using hdirect)]

theorem getFilePath_eq_firstMatch (cfg : Config) (fs : FsEntry)
    (clientKey reference : String) :
    getFilePath cfg fs clientKey reference =
      match (candidatePaths cfg fs clientKey reference).find?
          (fun p => statIsFile fs p) with
      | some p => .ok p
      | none => .error .notFound := by
  rw [getFilePath_eq_resolveSpec, resolveSpec_eq_firstMatch]

theorem getFilePath_ok_inv (cfg : Config) (fs : FsEntry)
    (clientKey reference : String) (p : FsPath)
    (h : getFilePath cfg fs clientKey reference = .ok p) :
    p ∈ candidatePaths cfg fs clientKey reference ∧ statIsFile fs p = true := by
  rw [getFilePath_eq_firstMatch] at h
  cases hfind : (candidatePaths cfg fs clientKey reference).find?
      (fun q => statIsFile fs q) with
  | none => rw [hfind] at h; simp at h
  | some q =>
    rw [hfind] at h
    simp at h
    subst h
    exact ⟨List.mem_of_find?_eq_some hfind, List.find?_some hfind⟩

theorem getFilePath_none_of_no_match (cfg : Config) (fs : FsEntry)
    (clientKey reference : String)
    (h : ∀ c ∈ candidatePaths cfg fs clientKey reference,
      statIsFile fs c = false) :
    getFilePath cfg fs clientKey reference = .error .notFound := by
  rw [getFilePath_eq_firstMatch]
  rw [List.find?_eq_none.mpr (by
    intro c hc
    simp [h c hc])]

/-! ## listFiles computed over the children of the client directory -/

theorem listView_nil (cfg : Config) (ck : String) :
    listView cfg ck [] = [] := rfl

theorem listView_cons (cfg : Config) (ck : String) (kv : String × FsEntry)
    (rest : List (String × FsEntry)) :
    listView cfg ck (kv :: rest) =
      (match kv.2 with
        | .file sz birth => [rootFileRecord cfg ck kv.1 sz birth]
        | .dir inner =>
            inner.filterMap (fun kv2 =>
              match kv2.2 with
              | .file sz birth =>
                  some (ownedFileRecord cfg ck kv.1 kv2.1 sz birth)
              | .dir _ => none)) ++ listView cfg ck rest := by
  simp [listView]

theorem listView_append (cfg : Config) (ck : String)
    (cs ds : List (String × FsEntry)) :
    listView cfg ck (cs ++ ds) = listView cfg ck cs ++ listView cfg ck ds := by
  simp [listView]

theorem listUserDir_view (cfg : Config) (fs : FsEntry) (ck : String)
    (entryPath : FsPath) (entry : String) (hplain : plainList entryPath) :
    ∀ (inner : List (String × FsEntry)) (acc : List StoredFile),
    (∀ kv ∈ inner, validName kv.1 ∧ find? (entryPath ++ [kv.1]) fs = some kv.2) →
    listUserDir cfg fs ck entryPath entry (childKeys inner) acc =
      some (acc ++ inner.filterMap (fun kv2 =>
        match kv2.2 with
        | .file sz birth => some (ownedFileRecord cfg ck entry kv2.1 sz birth)
        | .dir _ => none)) := by
  intro inner
  induction inner with
  | nil =>
    intro acc h
    simp [childKeys, listUserDir]
  | cons kv rest ih =>
    intro acc h
    obtain ⟨hvn, hfind⟩ := h kv (List.mem_cons_self kv rest)
    have hrest : ∀ kv2 ∈ rest,
        validName kv2.1 ∧ find? (entryPath ++ [kv2.1]) fs = some kv2.2 :=
      fun kv2 h2 => h kv2 (List.mem_cons_of_mem kv h2)
    have hkeys : childKeys (kv :: rest) = kv.1 :: childKeys rest := by
      simp [childKeys]
    rw [hkeys]
    have hjoin : joinPath entryPath kv.1 = entryPath ++ [kv.1] :=
      joinPath_single entryPath kv.1 hplain hvn
    obtain ⟨k1, v1⟩ := kv
    cases v1 with
    | file sz birth =>
      simp only [listUserDir, hjoin, hfind]
      rw [ih _ hrest]
      simp [List.filterMap_cons]
    | dir inner2 =>
      simp only [listUserDir, hjoin, hfind]
      rw [ih _ hrest]
      simp [List.filterMap_cons]

theorem listEntries_view (cfg : Config) (fs : FsEntry) (ck : String)
    (D : FsPath) (hplainD : plainList D) :
    ∀ (cs : List (String × FsEntry)) (acc : List StoredFile),
    (∀ kv ∈ cs, validName kv.1 ∧ find? (D ++ [kv.1]) fs = some kv.2 ∧
      (∀ inner, kv.2 = .dir inner → ∀ kv2 ∈ inner,
        validName kv2.1 ∧ find? ((D ++ [kv.1]) ++ [kv2.1]) fs = some kv2.2)) →
    listEntries cfg fs ck D (childKeys cs) acc =
      some (acc ++ listView cfg ck cs) := by
  intro cs
  induction cs with
  | nil =>
    intro acc h
    simp [childKeys, listEntries, listView]
  | cons kv rest ih =>
    intro acc h
    obtain ⟨hvn, hfind, hinner⟩ := h kv (List.mem_cons_self kv rest)
    have hrest : ∀ kv2 ∈ rest, validName kv2.1 ∧
        find? (D ++ [kv2.1]) fs = some kv2.2 ∧
        (∀ inner, kv2.2 = .dir inner → ∀ kv3 ∈ inner,
          validName kv3.1 ∧ find? ((D ++ [kv2.1]) ++ [kv3.1]) fs = some kv3.2) :=
      fun kv2 h2 => h kv2 (List.mem_cons_of_mem kv h2)
    have hkeys : childKeys (kv :: rest) = kv.1 :: childKeys rest := by
      simp [childKeys]
    rw [hkeys]
    have hjoin : joinPath D kv.1 = D ++ [kv.1] :=
      joinPath_single D kv.1 hplainD hvn
    obtain ⟨k1, v1⟩ := kv
    cases v1 with
    | file sz birth =>
      simp only [listEntries, hjoin, hfind]
      rw [ih _ hrest]
      rw [listView_cons]
      simp
    | dir inner =>
      simp only [listEntries, hjoin, hfind]
      have hrd : readdir? fs (D ++ [k1]) = some (childKeys inner) := by
        unfold readdir?
        rw [hfind]
      have hplain2 : plainList (D ++ [k1]) := by
        intro t ht
        rcases List.mem_append.mp ht with h' | h'
        · exact hplainD t h'
        · rcases List.mem_singleton.mp h' with rfl
          exact hvn.1
      have hsub : subdirRecords cfg fs ck (D ++ [k1]) k1 =
          inner.filterMap (fun kv2 =>
            match kv2.2 with
            | .file sz birth => some (ownedFileRecord cfg ck k1 kv2.1 sz birth)
            | .dir _ => none) := by
        unfold subdirRecords
        rw [hrd]
        show (listUserDir cfg fs ck (D ++ [k1]) k1 (childKeys inner) []).getD [] = _
        rw [listUserDir_view cfg fs ck (D ++ [k1]) k1 hplain2 inner []
          (hinner inner rfl)]
        simp
      rw [hsub, ih _ hrest, listView_cons]
      simp

theorem listFiles_view (cfg : Config) (fs : FsEntry) (ck : String)
    (cs : List (String × FsEntry))
    (hD : find? (resolveClientDir cfg ck) fs = some (.dir cs))
    (hwf : wfDir2 (some (.dir cs))) :
    listFiles cfg fs ck = listView cfg ck cs := by
  obtain ⟨⟨hnd, hvn⟩, hin⟩ := hwf
  have hrd : readdir? fs (resolveClientDir cfg ck) = some (childKeys cs) := by
    unfold readdir?
    rw [hD]
  have hplainD : plainList (resolveClientDir cfg ck) :=
    plainList_normSegs _
  have h1 : listFiles cfg fs ck =
      (listEntries cfg fs ck (resolveClientDir cfg ck) (childKeys cs) []).getD [] := by
    simp only [listFiles]
    rw [hrd]
  rw [h1, listEntries_view cfg fs ck (resolveClientDir cfg ck) hplainD cs [] ?_]
  · simp
  intro kv hkv
  have hfind1 : find? (resolveClientDir cfg ck ++ [kv.1]) fs = some kv.2 := by
    rw [find?_append, hD]
    rw [Option.some_bind']
    simp only [find?]
    rw [lookupChild_of_mem_nodup cs hnd kv hkv]
  refine ⟨hvn kv hkv, hfind1, ?_⟩
  intro inner hdir kv2 hkv2
  have hwfi := hin kv hkv
  rw [hdir] at hwfi
  obtain ⟨hnd2, hvn2⟩ := hwfi
  refine ⟨hvn2 kv2 hkv2, ?_⟩
  rw [find?_append, hfind1]
  rw [Option.some_bind']
  rw [hdir]
  simp only [find?]
  rw [lookupChild_of_mem_nodup inner hnd2 kv2 hkv2]

/-! ## The stored-name round trip -/

theorem str_append_empty (s : String) : s ++ "" = s := by
  cases s with
  | mk data =>
    show String.mk (data ++ []) = String.mk data
    rw [List.append_nil]

theorem asString_append (a b : List Char) :
    List.asString a ++ List.asString b = List.asString (a ++ b) := rfl

theorem basenameRaw_no_slash (s : String) (h : '/' ∉ s.toList) :
    basenameRaw s = s := by
  unfold basenameRaw
  rw [splitSegs_single s h]
  by_cases hs : s = ""
  · subst hs
    rfl
  · rw [List.filter_cons, if_pos (by simpa using hs)]
    rfl

theorem lastDotIdx_lt (l : List Char) (i : Nat) (h : lastDotIdx l = some i) :
    i < l.length := by
  unfold lastDotIdx at h
  have hmem := List.mem_of_getLast?_eq_some h
  obtain ⟨pr, hpr, rfl⟩ := List.mem_map.mp hmem
  have hpr' := List.mem_of_mem_filter hpr
  have hget := List.mem_enum_iff_getElem?.mp hpr'
  have := List.getElem?_eq_some.mp hget
  exact this.1

theorem basenameExt_empty_concat (p : String) :
    basenameExt p "" ++ "" = basenameRaw p := by
  rw [str_append_empty]
  unfold basenameExt
  by_cases h : ("" : String) = basenameRaw p
  · rw [if_pos h]
  · rw [if_neg h, if_pos ?_]
    · have h0 : (basenameRaw p).toList.length - ("" : String).toList.length =
          (basenameRaw p).toList.length := by simp
      rw [h0, List.take_length]
      exact asString_toList _
    · show ("" : String).toList.isSuffixOf (basenameRaw p).toList = true
      rw [List.isSuffixOf_iff_suffix]
      exact List.nil_suffix

theorem extname_none (p : String)
    (h : lastDotIdx (basenameRaw p).toList = none) : extname p = "" := by
  unfold extname
  rw [h]

theorem extname_some_zero (p : String) (i : Nat)
    (h : lastDotIdx (basenameRaw p).toList = some i)
    (hz : i = 0 ∨ basenameRaw p = "..") : extname p = "" := by
  unfold extname
  rw [h]
  show (if i = 0 ∨ basenameRaw p = ".." then ""
    else ((basenameRaw p).toList.drop i).asString) = ""
  rw [if_pos hz]

theorem extname_some (p : String) (i : Nat)
    (h : lastDotIdx (basenameRaw p).toList = some i)
    (hz : ¬(i = 0 ∨ basenameRaw p = "..")) :
    extname p = ((basenameRaw p).toList.drop i).asString := by
  unfold extname
  rw [h]
  show (if i = 0 ∨ basenameRaw p = ".." then ""
    else ((basenameRaw p).toList.drop i).asString) = _
  rw [if_neg hz]

theorem basenameExt_concat (p : String) :
    basenameExt p (extname p) ++ extname p = basenameRaw p := by
  cases hdot : lastDotIdx (basenameRaw p).toList with
  | none =>
    rw [extname_none p hdot]
    exact basenameExt_empty_concat p
  | some i =>
    by_cases hz : i = 0 ∨ basenameRaw p = ".."
    · rw [extname_some_zero p i hdot hz]
      exact basenameExt_empty_concat p
    · rw [extname_some p i hdot hz]
      have hilt : i < (basenameRaw p).toList.length := lastDotIdx_lt _ i hdot
      have hextb : ((basenameRaw p).toList.drop i).asString ≠ basenameRaw p := by
        intro he
        have h2 : ((basenameRaw p).toList.drop i).asString.toList
            = (basenameRaw p).toList := by rw [he]
        rw [toList_asString] at h2
        have hlen := congrArg List.length h2
        rw [List.length_drop] at hlen
        omega
      unfold basenameExt
      rw [if_neg hextb, if_pos ?_]
      · rw [toList_asString, List.length_drop]
        have h3 : (basenameRaw p).toList.length
            - ((basenameRaw p).toList.length - i) = i :=
          Nat.sub_sub_self (le_of_lt hilt)
        rw [h3, asString_append, List.take_append_drop]
        exact asString_toList (basenameRaw p)
      · show ((basenameRaw p).toList.drop i).asString.toList.isSuffixOf
          (basenameRaw p).toList = true
        rw [toList_asString, List.isSuffixOf_iff_suffix]
        exact List.drop_suffix i (basenameRaw p).toList

theorem formatTimestamp_toList (iso : String) :
    (formatTimestamp iso).toList =
      iso.toList.map (fun c => if c = ':' ∨ c = '.' then '-' else c) := by
  unfold formatTimestamp
  rw [toList_asString]

theorem not_mem_formatTimestamp (iso : String) (c : Char) (hc : c ≠ '-')
    (h : c ∉ iso.toList) : c ∉ (formatTimestamp iso).toList := by
  rw [formatTimestamp_toList]
  intro hmem
  obtain ⟨x, hx, hxc⟩ := List.mem_map.mp hmem
  by_cases hcase : x = ':' ∨ x = '.'
  · rw [if_pos hcase] at hxc
    exact hc hxc.symm
  · rw [if_neg hcase] at hxc
    exact h (hxc ▸ hx)

theorem gen_toList (iso uuid name : String) (hname : '/' ∉ name.toList) :
    (generateUniqueFilename iso uuid name).toList =
      (formatTimestamp iso).toList
        ++ ('_' :: (uuid.toList ++ ('_' :: name.toList))) := by
  unfold generateUniqueFilename
  have hconc : basenameExt name (extname name) ++ extname name = name := by
    rw [basenameExt_concat name, basenameRaw_no_slash name hname]
  have hconcl : (basenameExt name (extname name)).toList
      ++ (extname name).toList = name.toList := by
    rw [← toList_append, hconc]
  simp only [toList_append]
  have hu : ("_" : String).toList = ['_'] := rfl
  rw [hu]
  simp only [List.append_assoc, List.cons_append, List.nil_append]
  rw [hconcl]

theorem parseOriginalName_gen (iso uuid name : String)
    (hiso : '_' ∉ iso.toList) (huuid : '_' ∉ uuid.toList)
    (hname : '/' ∉ name.toList) :
    parseOriginalName (generateUniqueFilename iso uuid name) = name := by
  simp only [parseOriginalName]
  rw [gen_toList iso uuid name hname]
  have hts : '_' ∉ (formatTimestamp iso).toList :=
    not_mem_formatTimestamp _ _ (by decide) hiso
  rw [splitChar_append_sep '_' _ _ hts, splitChar_append_sep '_' _ _ huuid]
  rw [if_pos (by
    simp only [List.length_cons]
    have := splitChar_ne_nil '_' name.toList
    have hp : 0 < (splitChar '_' name.toList).length := List.length_pos.mpr this
    omega)]
  simp only [List.drop_succ_cons, List.drop_zero]
  rw [joinChar_splitChar]
  exact asString_toList name

theorem mem_underscore_gen (iso uuid name : String) (hname : '/' ∉ name.toList) :
    '_' ∈ (generateUniqueFilename iso uuid name).toList := by
  rw [gen_toList iso uuid name hname]
  exact List.mem_append.mpr (Or.inr (List.mem_cons_self _ _))

theorem validName_gen (iso uuid name : String)
    (hiso : '/' ∉ iso.toList) (huuid : '/' ∉ uuid.toList)
    (hname : '/' ∉ name.toList) :
    validName (generateUniqueFilename iso uuid name) := by
  have hus := mem_underscore_gen iso uuid name hname
  refine ⟨⟨?_, ?_, ?_⟩, ?_⟩
  · intro he
    rw [he] at hus
    simp at hus
  · intro he
    rw [he] at hus
    have : '_' ∈ ['.'] := hus
    simp at this
  · intro he
    rw [he] at hus
    have : '_' ∈ ['.', '.'] := hus
    simp at this
  · rw [gen_toList iso uuid name hname]
    intro hmem
    rcases List.mem_append.mp hmem with h | h
    · exact not_mem_formatTimestamp iso '/' (by decide) hiso h
    · rcases List.mem_cons.mp h with h' | h'
      · exact absurd h' (by decide)
      · rcases List.mem_append.mp h' with h2 | h2
        · exact huuid h2
        · rcases List.mem_cons.mp h2 with h3 | h3
          · exact absurd h3 (by decide)
          · exact hname h3

theorem no_backslash_gen (iso uuid name : String)
    (hiso : '\\' ∉ iso.toList) (huuid : '\\' ∉ uuid.toList)
    (hname : '\\' ∉ name.toList) (hns : '/' ∉ name.toList) :
    '\\' ∉ (generateUniqueFilename iso uuid name).toList := by
  rw [gen_toList iso uuid name hns]
  intro hmem
  rcases List.mem_append.mp hmem with h | h
  · exact not_mem_formatTimestamp iso '\\' (by decide) hiso h
  · rcases List.mem_cons.mp h with h' | h'
    · exact absurd h' (by decide)
    · rcases List.mem_append.mp h' with h2 | h2
      · exact huuid h2
      · rcases List.mem_cons.mp h2 with h3 | h3
        · exact absurd h3 (by decide)
        · exact hname h3

/-! ## The effect of saveBuffer on the listing -/

theorem wfLevel_append_fresh (cs : List (String × FsEntry)) (s : String)
    (e : FsEntry) (hwf : wfLevel cs) (hvn : validName s)
    (habs : lookupChild cs s = none) : wfLevel (cs ++ [(s, e)]) := by
  obtain ⟨hnd, hvns⟩ := hwf
  constructor
  · have hkeys : childKeys (cs ++ [(s, e)]) = childKeys cs ++ [s] := by
      simp [childKeys]
    rw [hkeys]
    refine List.Nodup.append hnd (List.nodup_singleton s) ?_
    intro a ha hb
    rcases List.mem_singleton.mp hb with rfl
    exact (lookupChild_eq_none cs a).mp habs ha
  · intro kv hkv
    rcases List.mem_append.mp hkv with h' | h'
    · exact hvns kv h'
    · rcases List.mem_singleton.mp h' with rfl
      exact hvn

theorem mem_listView_root (cfg : Config) (ck : String)
    (cs : List (String × FsEntry)) (s : String) (z b : Nat)
    (hmem : (s, FsEntry.file z b) ∈ cs) :
    rootFileRecord cfg ck s z b ∈ listView cfg ck cs := by
  unfold listView
  refine List.mem_flatMap.mpr ⟨(s, .file z b), hmem, ?_⟩
  simp

theorem mem_listView_owned (cfg : Config) (ck : String)
    (cs : List (String × FsEntry)) (u : String)
    (inner : List (String × FsEntry)) (s : String) (z b : Nat)
    (hmem : (u, FsEntry.dir inner) ∈ cs)
    (hmem2 : (s, FsEntry.file z b) ∈ inner) :
    ownedFileRecord cfg ck u s z b ∈ listView cfg ck cs := by
  unfold listView
  refine List.mem_flatMap.mpr ⟨(u, .dir inner), hmem, ?_⟩
  simp only
  refine List.mem_filterMap.mpr ⟨(s, .file z b), hmem2, ?_⟩
  simp

theorem saveBuffer_list_none (cfg : Config) (fs₀ : FsEntry) (iso uuid : String)
    (now : Nat) (ck originalName : String) (bufLen : Nat) (mimeType : String)
    (fs' : FsEntry) (rec : StoredFile)
    (hiso : '_' ∉ iso.toList ∧ '/' ∉ iso.toList)
    (huuid : '_' ∉ uuid.toList ∧ '/' ∉ uuid.toList)
    (hname : '/' ∉ originalName.toList)
    (hwf : wfDir2 (find? (resolveClientDir cfg ck) fs₀))
    (h : saveBuffer cfg fs₀ iso uuid now ck originalName bufLen mimeType none
      = some (fs', rec))
    (hfresh : ∀ r ∈ listFiles cfg fs₀ ck,
      r.filename ≠ generateUniqueFilename iso uuid originalName) :
    ∃ pre post,
      listFiles cfg fs' ck = pre
        ++ saveListRecord cfg ck none
            (generateUniqueFilename iso uuid originalName) bufLen now :: post
      ∧ (∀ r ∈ pre, r.filename ≠ generateUniqueFilename iso uuid originalName)
      ∧ (∀ r ∈ post, r.filename ≠ generateUniqueFilename iso uuid originalName)
      ∧ rec = { filename := generateUniqueFilename iso uuid originalName
                originalName := originalName
                size := bufLen
                mimeType := mimeType
                url := "/storage/file/" ++ encodeURIComponent
                  (saveRelPath none (generateUniqueFilename iso uuid originalName))
                uploadedAt := now
                publicUrl := "/" ++ cfg.storageRoot ++ "/" ++ ck ++ "/"
                  ++ saveRelPath none (generateUniqueFilename iso uuid originalName) }
      ∧ find? (saveTarget cfg ck none
            (generateUniqueFilename iso uuid originalName)) fs'
          = some (.file bufLen now) := by
  set D := resolveClientDir cfg ck with hD
  set stored := generateUniqueFilename iso uuid originalName with hstored
  have hplainD : plainList D := plainList_normSegs _
  have hvstored : validName stored :=
    validName_gen iso uuid originalName hiso.2 huuid.2 hname
  have hjoin : joinPath D stored = D ++ [stored] :=
    joinPath_single D stored hplainD hvstored
  simp only [saveBuffer, ensureClientDir, ← hD] at h
  cases hmk : mkdirRec D fs₀ with
  | none => rw [hmk] at h; simp at h
  | some fs1 =>
    rw [hmk] at h
    simp only [Option.map_some'] at h
    rw [hjoin] at h
    cases hwr : writeFileAt (D ++ [stored]) bufLen now fs1 with
    | none => rw [hwr] at h; simp at h
    | some fs3 =>
      simp only [hwr] at h
      cases hsz : statSize fs3 (D ++ [stored]) with
      | none => rw [hsz] at h; simp at h
      | some size =>
        simp only [hsz] at h
        simp only [Option.some.injEq, Prod.mk.injEq] at h
        obtain ⟨hfs3, hrec⟩ := h
        subst hfs3
        obtain ⟨cs₁, hfs1D, hrel⟩ := mkdirRec_find? D fs₀ fs1 hmk
        obtain ⟨e', hwr1, hfs3D⟩ :=
          op_decompose (fun p e => writeFileAt p bufLen now e)
            (fun s rest cs c hr hc => writeFileAt_hop bufLen now s rest cs c hr hc)
            D [stored] fs1 (.dir cs₁) fs3 (by simp) hfs1D hwr
        have hwfcs : wfLevel cs₁ ∧ (∀ kv ∈ cs₁, wfInner kv.2)
            ∧ (listFiles cfg fs₀ ck = listView cfg ck cs₁
                ∨ (cs₁ = [] ∧ listFiles cfg fs₀ ck = [])) := by
          rcases hrel with hrelL | hrelR
          · rw [hrelL] at hwf
            exact ⟨hwf.1, hwf.2,
              Or.inl (listFiles_view cfg fs₀ ck cs₁ hrelL hwf)⟩
          · rw [hrelR.2]
            refine ⟨⟨by simp [childKeys], by simp⟩, by simp, Or.inr ⟨rfl, ?_⟩⟩
            simp only [listFiles, readdir?, ← hD]
            rw [hrelR.1]
        obtain ⟨hwfl, hwfin, hold⟩ := hwfcs
        have hfreshView : lookupChild cs₁ stored = none := by
          cases hlk : lookupChild cs₁ stored with
          | none => rfl
          | some c =>
            cases c with
            | dir x =>
              simp only [writeFileAt, hlk] at hwr1
              simp at hwr1
            | file z b =>
              have hmem := lookupChild_mem cs₁ stored _ hlk
              rcases hold with holdL | holdR
              · have : rootFileRecord cfg ck stored z b ∈ listFiles cfg fs₀ ck := by
                  rw [holdL]
                  exact mem_listView_root cfg ck cs₁ stored z b hmem
                exact absurd rfl (hfresh _ this)
              · rw [holdR.1] at hmem
                cases hmem
        have he' : e' = .dir (cs₁ ++ [(stored, .file bufLen now)]) := by
          simp only [writeFileAt, hfreshView] at hwr1
          rw [setChild_absent cs₁ stored _ hfreshView] at hwr1
          simp at hwr1
          exact hwr1.symm
        subst he'
        have hfind_target : find? (D ++ [stored]) fs3 = some (.file bufLen now) := by
          rw [find?_append, hfs3D, Option.some_bind']
          simp only [find?]
          rw [lookupChild_append_right cs₁ _ stored hfreshView]
          simp [lookupChild]
        have hsz_buf : size = bufLen := by
          unfold statSize at hsz
          rw [hfind_target] at hsz
          simpa using hsz.symm
        have hwf' : wfDir2 (some (.dir (cs₁ ++ [(stored, .file bufLen now)]))) := by
          refine ⟨wfLevel_append_fresh cs₁ stored _ hwfl hvstored hfreshView, ?_⟩
          intro kv hkv
          rcases List.mem_append.mp hkv with h' | h'
          · exact hwfin kv h'
          · rcases List.mem_singleton.mp h' with rfl
            exact trivial
        have hlist' : listFiles cfg fs3 ck =
            listView cfg ck cs₁ ++ [rootFileRecord cfg ck stored bufLen now] := by
          rw [listFiles_view cfg fs3 ck _ (hD ▸ hfs3D) hwf', listView_append]
          congr 1
        refine ⟨listView cfg ck cs₁, [], ?_, ?_, ?_, ?_, ?_⟩
        · rw [hlist']
          rfl
        · intro r hr
          rcases hold with holdL | holdR
          · exact hfresh r (holdL ▸ hr)
          · rw [holdR.1] at hr
            simp [listView] at hr
        · intro r hr
          cases hr
        · rw [← hrec, hsz_buf]
        · show find? (D ++ [stored]) fs3 = some (.file bufLen now)
          exact hfind_target

theorem lookupChild_split (cs : List (String × FsEntry)) (s : String)
    (v : FsEntry) (h : lookupChild cs s = some v) :
    ∃ A B, cs = A ++ (s, v) :: B ∧ lookupChild A s = none := by
  induction cs with
  | nil => simp [lookupChild] at h
  | cons kv rest ih =>
    obtain ⟨k, w⟩ := kv
    by_cases hk : k = s
    · subst hk
      have h' : w = v := by simpa [lookupChild] using h
      subst h'
      exact ⟨[], rest, rfl, by simp [lookupChild]⟩
    · simp only [lookupChild, if_neg hk] at h
      obtain ⟨A, B, hAB, hA⟩ := ih h
      refine ⟨(k, w) :: A, B, by simp [hAB], ?_⟩
      simp only [lookupChild, if_neg hk]
      exact hA

theorem setChild_split (A B : List (String × FsEntry)) (s : String)
    (v e : FsEntry) (hA : lookupChild A s = none) :
    setChild (A ++ (s, v) :: B) s e = A ++ (s, e) :: B := by
  induction A with
  | nil => simp [setChild]
  | cons kv rest ih =>
    obtain ⟨k, w⟩ := kv
    by_cases hk : k = s
    · subst hk
      simp [lookupChild] at hA
    · simp only [lookupChild, if_neg hk] at hA
      show setChild ((k, w) :: (rest ++ (s, v) :: B)) s e
        = (k, w) :: (rest ++ (s, e) :: B)
      simp only [setChild, if_neg hk]
      rw [ih hA]

theorem saveBuffer_list_some (cfg : Config) (fs₀ : FsEntry) (iso uuid : String)
    (now : Nat) (ck originalName : String) (bufLen : Nat) (mimeType : String)
    (u : String) (fs' : FsEntry) (rec : StoredFile)
    (hiso : '_' ∉ iso.toList ∧ '/' ∉ iso.toList)
    (huuid : '_' ∉ uuid.toList ∧ '/' ∉ uuid.toList)
    (hname : '/' ∉ originalName.toList)
    (hu : validName u)
    (hwf : wfDir2 (find? (resolveClientDir cfg ck) fs₀))
    (h : saveBuffer cfg fs₀ iso uuid now ck originalName bufLen mimeType (some u)
      = some (fs', rec))
    (hfresh : ∀ r ∈ listFiles cfg fs₀ ck,
      r.filename ≠ generateUniqueFilename iso uuid originalName) :
    ∃ pre post,
      listFiles cfg fs' ck = pre
        ++ saveListRecord cfg ck (some u)
            (generateUniqueFilename iso uuid originalName) bufLen now :: post
      ∧ (∀ r ∈ pre, r.filename ≠ generateUniqueFilename iso uuid originalName)
      ∧ (∀ r ∈ post, r.filename ≠ generateUniqueFilename iso uuid originalName)
      ∧ rec = { filename := generateUniqueFilename iso uuid originalName
                originalName := originalName
                size := bufLen
                mimeType := mimeType
                url := "/storage/file/" ++ encodeURIComponent
                  (saveRelPath (some u)
                    (generateUniqueFilename iso uuid originalName))
                uploadedAt := now
                publicUrl := "/" ++ cfg.storageRoot ++ "/" ++ ck ++ "/"
                  ++ saveRelPath (some u)
                      (generateUniqueFilename iso uuid originalName) }
      ∧ find? (saveTarget cfg ck (some u)
            (generateUniqueFilename iso uuid originalName)) fs'
          = some (.file bufLen now) := by
  set D := resolveClientDir cfg ck with hD
  set stored := generateUniqueFilename iso uuid originalName with hstored
  have hplainD : plainList D := plainList_normSegs _
  have hvstored : validName stored :=
    validName_gen iso uuid originalName hiso.2 huuid.2 hname
  have hjoinU : joinPath D u = D ++ [u] :=
    joinPath_single D u hplainD hu
  have hplainDu : plainList (D ++ [u]) := by
    intro t ht
    rcases List.mem_append.mp ht with h' | h'
    · exact hplainD t h'
    · rcases List.mem_singleton.mp h' with rfl
      exact hu.1
  have hpath : joinPath (joinPath D u) stored = D ++ [u, stored] := by
    rw [hjoinU, joinPath_single (D ++ [u]) stored hplainDu hvstored,
      List.append_assoc]
    rfl
  simp only [saveBuffer, ensureClientDir, ← hD] at h
  cases hmk : mkdirRec D fs₀ with
  | none => rw [hmk] at h; simp at h
  | some fs1 =>
    simp only [hmk, Option.map_some'] at h
    cases hmk2 : mkdirRec (joinPath D u) fs1 with
    | none => rw [hmk2] at h; simp at h
    | some fs2 =>
      simp only [hmk2, Option.map_some'] at h
      rw [hpath] at h
      cases hwr : writeFileAt (D ++ [u, stored]) bufLen now fs2 with
      | none => rw [hwr] at h; simp at h
      | some fs3 =>
        simp only [hwr] at h
        cases hsz : statSize fs3 (D ++ [u, stored]) with
        | none => rw [hsz] at h; simp at h
        | some size =>
          simp only [hsz, Option.some.injEq, Prod.mk.injEq] at h
          obtain ⟨hfs3, hrec⟩ := h
          subst hfs3
          obtain ⟨cs₁, hfs1D, hrel⟩ := mkdirRec_find? D fs₀ fs1 hmk
          have hwfcs : wfLevel cs₁ ∧ (∀ kv ∈ cs₁, wfInner kv.2)
              ∧ (listFiles cfg fs₀ ck = listView cfg ck cs₁
                  ∨ (cs₁ = [] ∧ listFiles cfg fs₀ ck = [])) := by
            rcases hrel with hrelL | hrelR
            · rw [hrelL] at hwf
              exact ⟨hwf.1, hwf.2,
                Or.inl (listFiles_view cfg fs₀ ck cs₁ hrelL hwf)⟩
            · rw [hrelR.2]
              refine ⟨⟨by simp [childKeys], by simp⟩, by simp, Or.inr ⟨rfl, ?_⟩⟩
              simp only [listFiles, readdir?, ← hD]
              rw [hrelR.1]
          obtain ⟨hwfl, hwfin, hold⟩ := hwfcs
          rw [hjoinU] at hmk2
          obtain ⟨e₂, hmk2u, hfs2D⟩ :=
            op_decompose mkdirRec mkdirRec_hop D [u] fs1 (.dir cs₁) fs2
              (by simp) hfs1D hmk2
          have hmk2a : ∃ cs₂ inner, e₂ = .dir cs₂
              ∧ lookupChild cs₂ u = some (.dir inner)
              ∧ listView cfg ck cs₂ = listView cfg ck cs₁
              ∧ wfLevel cs₂ ∧ (∀ kv ∈ cs₂, wfInner kv.2) := by
            cases hlku : lookupChild cs₁ u with
            | some c =>
              cases c with
              | file z b =>
                simp only [mkdirRec, hlku] at hmk2u
                simp [mkdirRec] at hmk2u
              | dir inner =>
                simp only [mkdirRec, hlku, Option.map_some'] at hmk2u
                rw [setChild_self cs₁ u _ hlku] at hmk2u
                refine ⟨cs₁, inner, ?_, hlku, rfl, hwfl, hwfin⟩
                simpa using hmk2u.symm
            | none =>
              simp only [mkdirRec, hlku, Option.map_some'] at hmk2u
              refine ⟨cs₁ ++ [(u, .dir [])], [], ?_, ?_, ?_, ?_, ?_⟩
              · simpa using hmk2u.symm
              · rw [lookupChild_append_right _ _ _ hlku]
                simp [lookupChild]
              · rw [listView_append]
                simp [listView]
              · exact wfLevel_append_fresh cs₁ u _ hwfl hu hlku
              · intro kv hkv
                rcases List.mem_append.mp hkv with h' | h'
                · exact hwfin kv h'
                · rcases List.mem_singleton.mp h' with rfl
                  show wfInner (.dir [])
                  simp [wfInner, wfLevel, childKeys]
          obtain ⟨cs₂, inner, he₂, hB, hC, hwfl₂, hwfin₂⟩ := hmk2a
          subst he₂
          have hmemu : (u, FsEntry.dir inner) ∈ cs₂ := lookupChild_mem cs₂ u _ hB
          have hwflin : wfLevel inner := by
            have := hwfin₂ _ hmemu
            exact this
          obtain ⟨e₃, hwr2, hfs3D⟩ :=
            op_decompose (fun p e => writeFileAt p bufLen now e)
              (fun s rest cs c hr hc => writeFileAt_hop bufLen now s rest cs c hr hc)
              D [u, stored] fs2 (.dir cs₂) fs3 (by simp) hfs2D hwr
          rw [writeFileAt_hop bufLen now u [stored] cs₂ _ (by simp) hB] at hwr2
          have hfreshInner : lookupChild inner stored = none := by
            cases hlki : lookupChild inner stored with
            | none => rfl
            | some c =>
              cases c with
              | dir x =>
                simp only [writeFileAt, hlki] at hwr2
                simp at hwr2
              | file z b =>
                have hmem2 := lookupChild_mem inner stored _ hlki
                have hrecmem : ownedFileRecord cfg ck u stored z b
                    ∈ listView cfg ck cs₂ :=
                  mem_listView_owned cfg ck cs₂ u inner stored z b hmemu hmem2
                rw [hC] at hrecmem
                rcases hold with holdL | holdR
                · exact absurd rfl (hfresh _ (holdL ▸ hrecmem))
                · rw [holdR.1] at hrecmem
                  simp [listView] at hrecmem
          have he₃ : e₃ = .dir (setChild cs₂ u
              (.dir (inner ++ [(stored, .file bufLen now)]))) := by
            simp only [writeFileAt, hfreshInner] at hwr2
            rw [setChild_absent inner stored _ hfreshInner] at hwr2
            simpa using hwr2.symm
          subst he₃
          have hfind_target : find? (D ++ [u, stored]) fs3
              = some (.file bufLen now) := by
            rw [find?_append, hfs3D, Option.some_bind']
            simp only [find?]
            rw [lookupChild_setChild_self]
            show find? [stored]
              (FsEntry.dir (inner ++ [(stored, FsEntry.file bufLen now)]))
              = some (FsEntry.file bufLen now)
            simp only [find?]
            rw [lookupChild_append_right inner _ stored hfreshInner]
            simp [lookupChild]
          have hsz_buf : size = bufLen := by
            unfold statSize at hsz
            rw [hfind_target] at hsz
            simpa using hsz.symm
          obtain ⟨A₁, B₁, hABsplit, hAnone⟩ := lookupChild_split cs₂ u _ hB
          have hset : setChild cs₂ u (.dir (inner ++ [(stored, .file bufLen now)]))
              = A₁ ++ (u, .dir (inner ++ [(stored, .file bufLen now)])) :: B₁ := by
            rw [hABsplit]
            exact setChild_split A₁ B₁ u _ _ hAnone
          have hwf₃ : wfDir2 (some (.dir (setChild cs₂ u
              (.dir (inner ++ [(stored, .file bufLen now)]))))) := by
            constructor
            · constructor
              · rw [childKeys_setChild_present cs₂ u _ _ hB]
                exact hwfl₂.1
              · intro kv hkv
                rw [hset] at hkv
                rcases List.mem_append.mp hkv with h' | h'
                · exact hwfl₂.2 kv (by
                    rw [hABsplit]
                    exact List.mem_append.mpr (Or.inl h'))
                · rcases List.mem_cons.mp h' with rfl | h''
                  · exact hu
                  · exact hwfl₂.2 kv (by
                      rw [hABsplit]
                      exact List.mem_append.mpr
                        (Or.inr (List.mem_cons_of_mem _ h'')))
            · intro kv hkv
              rw [hset] at hkv
              rcases List.mem_append.mp hkv with h' | h'
              · rw [hABsplit] at hwfin₂
                exact hwfin₂ kv (List.mem_append.mpr (Or.inl h'))
              · rcases List.mem_cons.mp h' with rfl | h''
                · show wfInner (.dir (inner ++ [(stored, .file bufLen now)]))
                  exact wfLevel_append_fresh inner stored _ hwflin hvstored
                    hfreshInner
                · rw [hABsplit] at hwfin₂
                  exact hwfin₂ kv
                    (List.mem_append.mpr (Or.inr (List.mem_cons_of_mem _ h'')))
          have hinnerRecs : (inner ++ [(stored, FsEntry.file bufLen now)]).filterMap
              (fun kv2 => match kv2.2 with
                | FsEntry.file sz birth =>
                    some (ownedFileRecord cfg ck u kv2.1 sz birth)
                | FsEntry.dir _ => none) =
              inner.filterMap (fun kv2 => match kv2.2 with
                | FsEntry.file sz birth =>
                    some (ownedFileRecord cfg ck u kv2.1 sz birth)
                | FsEntry.dir _ => none)
              ++ [ownedFileRecord cfg ck u stored bufLen now] := by
            rw [List.filterMap_append]
            simp
          have hlist' : listFiles cfg fs3 ck =
              (listView cfg ck A₁
                ++ inner.filterMap (fun kv2 => match kv2.2 with
                  | FsEntry.file sz birth =>
                      some (ownedFileRecord cfg ck u kv2.1 sz birth)
                  | FsEntry.dir _ => none))
              ++ ownedFileRecord cfg ck u stored bufLen now
                :: listView cfg ck B₁ := by
            rw [listFiles_view cfg fs3 ck _ (hD ▸ hfs3D) hwf₃, hset,
              listView_append, listView_cons]
            simp only [hinnerRecs]
            simp [List.append_assoc]
          have holdrecs : (listView cfg ck A₁
                ++ inner.filterMap (fun kv2 => match kv2.2 with
                  | FsEntry.file sz birth =>
                      some (ownedFileRecord cfg ck u kv2.1 sz birth)
                  | FsEntry.dir _ => none))
                ++ listView cfg ck B₁ = listView cfg ck cs₂ := by
            rw [hABsplit, listView_append, listView_cons]
            simp [List.append_assoc]
          refine ⟨listView cfg ck A₁
              ++ inner.filterMap (fun kv2 => match kv2.2 with
                | FsEntry.file sz birth =>
                    some (ownedFileRecord cfg ck u kv2.1 sz birth)
                | FsEntry.dir _ => none),
            listView cfg ck B₁, ?_, ?_, ?_, ?_, ?_⟩
          · exact hlist'
          · intro r hr
            have hrcs₂ : r ∈ listView cfg ck cs₂ := by
              rw [← holdrecs]
              exact List.mem_append.mpr (Or.inl hr)
            rw [hC] at hrcs₂
            rcases hold with holdL | holdR
            · exact hfresh r (holdL ▸ hrcs₂)
            · rw [holdR.1] at hrcs₂
              simp [listView] at hrcs₂
          · intro r hr
            have hrcs₂ : r ∈ listView cfg ck cs₂ := by
              rw [← holdrecs]
              exact List.mem_append.mpr (Or.inr hr)
            rw [hC] at hrcs₂
            rcases hold with holdL | holdR
            · exact hfresh r (holdL ▸ hrcs₂)
            · rw [holdR.1] at hrcs₂
              simp [listView] at hrcs₂
          · rw [← hrec, hsz_buf]
          · show find? (D ++ [u, stored]) fs3 = some (.file bufLen now)
            exact hfind_target

/-! ## Statistics lemmas -/

theorem bumpFileType_count_sum (m : List (String × TypeStat)) (k : String)
    (sz : Nat) :
    ((bumpFileType m k sz).map (fun kv => kv.2.count)).sum
      = ((m.map (fun kv => kv.2.count)).sum) + 1 := by
  induction m with
  | nil => simp [bumpFileType]
  | cons kv rest ih =>
    obtain ⟨k0, v⟩ := kv
    by_cases hk : k0 = k
    · simp [bumpFileType, hk]
      omega
    · simp [bumpFileType, hk, ih]
      omega

theorem bumpFileType_size_sum (m : List (String × TypeStat)) (k : String)
    (sz : Nat) :
    ((bumpFileType m k sz).map (fun kv => kv.2.totalSize)).sum
      = ((m.map (fun kv => kv.2.totalSize)).sum) + sz := by
  induction m with
  | nil => simp [bumpFileType]
  | cons kv rest ih =>
    obtain ⟨k0, v⟩ := kv
    by_cases hk : k0 = k
    · simp [bumpFileType, hk]
      omega
    · simp [bumpFileType, hk, ih]
      omega

theorem fileTypesCounts_go (files : List StoredFile)
    (m₀ : List (String × TypeStat)) :
    ((files.foldl (fun m f =>
        bumpFileType m (getFileTypeFromMimeType f.mimeType) f.size) m₀).map
      (fun kv => kv.2.count)).sum
      = ((m₀.map (fun kv => kv.2.count)).sum) + files.length := by
  induction files generalizing m₀ with
  | nil => simp
  | cons f rest ih =>
    simp only [List.foldl_cons, List.length_cons]
    rw [ih, bumpFileType_count_sum]
    omega

theorem fileTypesCounts_count_sum (files : List StoredFile) :
    ((fileTypesCounts files).map (fun kv => kv.2.count)).sum = files.length := by
  unfold fileTypesCounts
  rw [fileTypesCounts_go]
  simp

theorem fileTypesSizes_go (files : List StoredFile)
    (m₀ : List (String × TypeStat)) :
    ((files.foldl (fun m f =>
        bumpFileType m (getFileTypeFromMimeType f.mimeType) f.size) m₀).map
      (fun kv => kv.2.totalSize)).sum
      = ((m₀.map (fun kv => kv.2.totalSize)).sum)
        + (files.map (fun f => f.size)).sum := by
  induction files generalizing m₀ with
  | nil => simp
  | cons f rest ih =>
    simp only [List.foldl_cons, List.map_cons, List.sum_cons]
    rw [ih, bumpFileType_size_sum]
    omega

theorem fileTypesCounts_size_sum (files : List StoredFile) :
    ((fileTypesCounts files).map (fun kv => kv.2.totalSize)).sum
      = (files.map (fun f => f.size)).sum := by
  unfold fileTypesCounts
  rw [fileTypesSizes_go]
  simp

theorem withPercentages_counts (n : Nat) (m : List (String × TypeStat)) :
    (withPercentages n m).map (fun kv => kv.2.count)
      = m.map (fun kv => kv.2.count) := by
  unfold withPercentages
  rw [List.map_map]
  rfl

theorem withPercentages_sizes (n : Nat) (m : List (String × TypeStat)) :
    (withPercentages n m).map (fun kv => kv.2.totalSize)
      = m.map (fun kv => kv.2.totalSize) := by
  unfold withPercentages
  rw [List.map_map]
  rfl

theorem withPercentages_length (n : Nat) (m : List (String × TypeStat)) :
    (withPercentages n m).length = m.length := by
  unfold withPercentages
  exact List.length_map m _

theorem percSum_bound (n : Nat) (m : List (String × TypeStat)) :
    |((withPercentages n m).map (fun kv => (kv.2.percentage : ℚ))).sum
      - (m.map (fun kv => ((kv.2.count : ℚ) / (n : ℚ)) * 100)).sum|
      ≤ (m.length : ℚ) / 2 := by
  induction m with
  | nil => simp [withPercentages]
  | cons kv rest ih =>
    have hcons : ((withPercentages n (kv :: rest)).map
        (fun kv => (kv.2.percentage : ℚ))).sum
        = ((round (((kv.2.count : ℚ) / (n : ℚ)) * 100) : ℤ) : ℚ)
          + ((withPercentages n rest).map
              (fun kv => (kv.2.percentage : ℚ))).sum := by
      simp [withPercentages]
    rw [hcons, List.map_cons, List.sum_cons]
    set S := ((withPercentages n rest).map
      (fun kv => (kv.2.percentage : ℚ))).sum with hS
    set T := (rest.map (fun kv => ((kv.2.count : ℚ) / (n : ℚ)) * 100)).sum with hT
    set x := ((kv.2.count : ℚ) / (n : ℚ)) * 100 with hx
    have h1 : ((round x : ℤ) : ℚ) + S - (x + T)
        = (((round x : ℤ) : ℚ) - x) + (S - T) := by ring
    have habs : |((round x : ℤ) : ℚ) - x| ≤ 1 / 2 := by
      rw [abs_sub_comm]
      exact abs_sub_round x
    have hlen : (((rest.length + 1 : ℕ)) : ℚ) / 2
        = (rest.length : ℚ) / 2 + 1 / 2 := by push_cast; ring
    rw [List.length_cons, hlen, h1]
    calc |(((round x : ℤ) : ℚ) - x) + (S - T)|
        ≤ |((round x : ℤ) : ℚ) - x| + |S - T| := abs_add _ _
      _ ≤ 1 / 2 + (rest.length : ℚ) / 2 := add_le_add habs ih
      _ = (rest.length : ℚ) / 2 + 1 / 2 := by ring

theorem withPercentages_sum_eq (n : Nat) (m : List (String × TypeStat)) :
    ((withPercentages n m).map (fun kv => (kv.2.percentage : ℚ))).sum
      = (m.map (fun kv =>
          ((round ((kv.2.count : ℚ) / (n : ℚ) * 100) : ℤ) : ℚ))).sum := by
  unfold withPercentages
  rw [List.map_map]
  rfl

theorem counts_x_sum_eq_100 (n : Nat) (hn : n ≠ 0)
    (m : List (String × TypeStat))
    (hsum : (m.map (fun kv => kv.2.count)).sum = n) :
    (m.map (fun kv => ((kv.2.count : ℚ) / (n : ℚ)) * 100)).sum = 100 := by
  have h1 : m.map (fun kv => ((kv.2.count : ℚ) / (n : ℚ)) * 100)
      = m.map (fun kv => ((kv.2.count : Nat) : ℚ) * (100 / (n : ℚ))) := by
    apply List.map_congr_left
    intro kv _
    field_simp
  rw [h1]
  have h2 : (m.map (fun kv => ((kv.2.count : Nat) : ℚ) * (100 / (n : ℚ)))).sum
      = ((m.map (fun kv => ((kv.2.count : Nat) : ℚ))).sum) * (100 / (n : ℚ)) := by
    rw [← List.sum_map_mul_right]
  rw [h2]
  have h3 : (m.map (fun kv => ((kv.2.count : Nat) : ℚ))).sum
      = (((m.map (fun kv => kv.2.count)).sum : Nat) : ℚ) := by
    rw [Nat.cast_list_sum, List.map_map]
    rfl
  rw [h3, hsum]
  have hn' : (n : ℚ) ≠ 0 := Nat.cast_ne_zero.mpr hn
  field_simp

theorem bumpBucket_sum (sb : List (String × Nat)) (k : String) :
    ((bumpBucket sb k).map (fun kv => kv.2)).sum
      = ((sb.map (fun kv => kv.2)).sum) + 1 := by
  induction sb with
  | nil => simp [bumpBucket]
  | cons kv rest ih =>
    obtain ⟨k0, v⟩ := kv
    by_cases hk : k0 = k
    · simp [bumpBucket, hk]
      omega
    · simp [bumpBucket, hk, ih]
      omega

theorem bumpBucket_keys (sb : List (String × Nat)) (k : String)
    (hk : k ∈ sb.map (fun kv => kv.1)) :
    (bumpBucket sb k).map (fun kv => kv.1) = sb.map (fun kv => kv.1) := by
  induction sb with
  | nil => cases hk
  | cons kv rest ih =>
    obtain ⟨k0, v⟩ := kv
    by_cases hk0 : k0 = k
    · simp [bumpBucket, hk0]
    · simp only [List.map_cons] at hk
      rcases List.mem_cons.mp hk with h' | h'
      · exact absurd h'.symm hk0
      · simp [bumpBucket, hk0, ih h']

theorem sizeBucket_mem (sz : Nat) :
    sizeBucket sz ∈ ["0-1MB", "1-10MB", "10-100MB", "100MB+"] := by
  unfold sizeBucket
  by_cases h1 : sz < 1048576
  · simp [h1]
  · by_cases h2 : sz < 10485760
    · simp [h1, h2]
    · by_cases h3 : sz < 104857600
      · simp [h1, h2, h3]
      · simp [h1, h2, h3]

theorem sizeBreakdown_go_sum (files : List StoredFile)
    (sb₀ : List (String × Nat)) :
    ((files.foldl (fun sb f => bumpBucket sb (sizeBucket f.size)) sb₀).map
      (fun kv => kv.2)).sum = ((sb₀.map (fun kv => kv.2)).sum) + files.length := by
  induction files generalizing sb₀ with
  | nil => simp
  | cons f rest ih =>
    simp only [List.foldl_cons, List.length_cons]
    rw [ih, bumpBucket_sum]
    omega

theorem sizeBreakdownOf_sum (files : List StoredFile) :
    ((sizeBreakdownOf files).map (fun kv => kv.2)).sum = files.length := by
  unfold sizeBreakdownOf
  rw [sizeBreakdown_go_sum]
  simp

theorem sizeBreakdown_go_keys (files : List StoredFile)
    (sb₀ : List (String × Nat))
    (hkeys : sb₀.map (fun kv => kv.1) = ["0-1MB", "1-10MB", "10-100MB", "100MB+"]) :
    (files.foldl (fun sb f => bumpBucket sb (sizeBucket f.size)) sb₀).map
      (fun kv => kv.1) = ["0-1MB", "1-10MB", "10-100MB", "100MB+"] := by
  induction files generalizing sb₀ with
  | nil => exact hkeys
  | cons f rest ih =>
    simp only [List.foldl_cons]
    refine ih _ ?_
    rw [bumpBucket_keys sb₀ _ (by rw [hkeys]; exact sizeBucket_mem f.size), hkeys]

theorem sizeBreakdownOf_keys (files : List StoredFile) :
    (sizeBreakdownOf files).map (fun kv => kv.1)
      = ["0-1MB", "1-10MB", "10-100MB", "100MB+"] := by
  unfold sizeBreakdownOf
  exact sizeBreakdown_go_keys files _ (by simp)

theorem foldl_add_size (files : List StoredFile) (a : Nat) :
    files.foldl (fun s f => s + f.size) a = a + (files.map (fun f => f.size)).sum := by
  induction files generalizing a with
  | nil => simp
  | cons f rest ih =>
    simp only [List.foldl_cons, List.map_cons, List.sum_cons]
    rw [ih]
    omega

theorem getFileStatistics_nonempty (cfg : Config) (fs : FsEntry) (ck : String)
    (h : listFiles cfg fs ck ≠ []) :
    getFileStatistics cfg fs ck =
      { totalFiles := (listFiles cfg fs ck).length
        totalSize := (listFiles cfg fs ck).foldl (fun s f => s + f.size) 0
        fileTypes := withPercentages (listFiles cfg fs ck).length
          (fileTypesCounts (listFiles cfg fs ck))
        sizeBreakdown := sizeBreakdownOf (listFiles cfg fs ck) } := by
  simp only [getFileStatistics]
  rw [if_neg (by simpa [List.length_eq_zero] using h)]

/-! ## Relative-path computation in getFileInfo -/

theorem commonPrefixLen_self_append (D m : List String) :
    commonPrefixLen D (D ++ m) = D.length := by
  induction D with
  | nil => rfl
  | cons s rest ih =>
    show (if s = s then commonPrefixLen rest (rest ++ m) + 1 else 0)
      = rest.length + 1
    rw [if_pos rfl, ih]

theorem pathRelative_under (D rel : FsPath) :
    pathRelative D (D ++ rel) = joinStrs "/" rel := by
  simp only [pathRelative]
  rw [commonPrefixLen_self_append, Nat.sub_self, List.replicate_zero,
    List.nil_append, List.drop_left]

theorem map_noop {α : Type} (l : List α) (f : α → α) (h : ∀ c ∈ l, f c = c) :
    l.map f = l := by
  induction l with
  | nil => rfl
  | cons c rest ih =>
    simp only [List.map_cons]
    rw [h c (List.mem_cons_self c rest), ih
      (fun c hc => h c (List.mem_cons_of_mem _ hc))]

theorem backslashToSlash_id (s : String) (h : '\\' ∉ s.toList) :
    backslashToSlash s = s := by
  unfold backslashToSlash
  rw [map_noop s.toList _ (by
    intro c hc
    rw [if_neg]
    intro he
    exact h (he ▸ hc))]
  exact asString_toList s

theorem joinStrs_single (a : String) : joinStrs "/" [a] = a := rfl

theorem joinStrs_pair (a b : String) : joinStrs "/" [a, b] = a ++ "/" ++ b := rfl

theorem str_append_assoc (a b c : String) : (a ++ b) ++ c = a ++ (b ++ c) := by
  cases a with
  | mk la =>
    cases b with
    | mk lb =>
      cases c with
      | mk lc =>
        show String.mk ((la ++ lb) ++ lc) = String.mk (la ++ (lb ++ lc))
        rw [List.append_assoc]

theorem getFileInfo_ok (cfg : Config) (fs : FsEntry) (ck ref : String)
    (tgt : FsPath) (sz b : Nat)
    (hres : getFilePath cfg fs ck ref = .ok tgt)
    (hfind : find? tgt fs = some (.file sz b)) :
    getFileInfo cfg fs ck ref = .ok
      { filename := basenameRaw ref
        originalName := parseOriginalName (basenameRaw ref)
        size := sz
        mimeType := getMimeType cfg ref
        url := "/storage/file/" ++ encodeURIComponent
          (backslashToSlash (pathRelative (resolveClientDir cfg ck) tgt))
        uploadedAt := b
        publicUrl := "/" ++ cfg.storageRoot ++ "/" ++ ck ++ "/"
          ++ backslashToSlash (pathRelative (resolveClientDir cfg ck) tgt) } := by
  simp only [getFileInfo, hres, hfind]

theorem getFilePath_direct (cfg : Config) (fs : FsEntry) (ck ref : String)
    (h : statIsFile fs (joinPath (resolveClientDir cfg ck) ref) = true) :
    getFilePath cfg fs ck ref = .ok (joinPath (resolveClientDir cfg ck) ref) := by
  unfold getFilePath
  rw [if_pos h]

/-! ## Helper lemmas for the claim theorems -/

theorem two_mem_length {α : Type} (l : List α) (a b : α)
    (ha : a ∈ l) (hb : b ∈ l) (hne : a ≠ b) : 2 ≤ l.length := by
  obtain ⟨s, t, rfl⟩ := List.append_of_mem ha
  have hb' : b ∈ s ++ t := by
    rcases List.mem_append.mp hb with h | h
    · exact List.mem_append.mpr (Or.inl h)
    · rcases List.mem_cons.mp h with rfl | h
      · exact absurd rfl hne
      · exact List.mem_append.mpr (Or.inr h)
  have h1 : 1 ≤ (s ++ t).length := List.length_pos.mpr (List.ne_nil_of_mem hb')
  rw [List.length_append] at h1
  simp only [List.length_append, List.length_cons]
  omega

theorem filter_single_middle (pre post : List StoredFile) (x : StoredFile)
    (s : String) (hx : x.filename = s)
    (hpre : ∀ r ∈ pre, r.filename ≠ s) (hpost : ∀ r ∈ post, r.filename ≠ s) :
    ((pre ++ x :: post).filter (fun r => r.filename == s)).length = 1 := by
  have h1 : pre.filter (fun r => r.filename == s) = [] :=
    List.filter_eq_nil_iff.mpr (by intro r hr; simpa using hpre r hr)
  have h2 : post.filter (fun r => r.filename == s) = [] :=
    List.filter_eq_nil_iff.mpr (by intro r hr; simpa using hpost r hr)
  rw [List.filter_append, List.filter_cons_of_pos (by simpa using hx), h1, h2]
  rfl

theorem mem_middle_eq (pre post : List StoredFile) (x : StoredFile) (s : String)
    (hpre : ∀ r ∈ pre, r.filename ≠ s) (hpost : ∀ r ∈ post, r.filename ≠ s) :
    ∀ r ∈ pre ++ x :: post, r.filename = s → r = x := by
  intro r hr hrs
  rcases List.mem_append.mp hr with h | h
  · exact absurd hrs (hpre r h)
  · rcases List.mem_cons.mp h with rfl | h
    · rfl
    · exact absurd hrs (hpost r h)

theorem saveListRecord_filename (cfg : Config) (ck : String)
    (o : Option String) (stored : String) (sz t : Nat) :
    (saveListRecord cfg ck o stored sz t).filename = stored := by
  cases o <;> rfl

theorem saveListRecord_originalName (cfg : Config) (ck : String)
    (o : Option String) (stored : String) (sz t : Nat) :
    (saveListRecord cfg ck o stored sz t).originalName
      = parseOriginalName stored := by
  cases o <;> rfl

theorem candidatePaths_mono_unlink (cfg : Config) (fs fs' : FsEntry)
    (ck ref : String) (p : List String) (hun : unlinkAt p fs = some fs') :
    ∀ c ∈ candidatePaths cfg fs' ck ref, c ∈ candidatePaths cfg fs ck ref := by
  intro c hc
  unfold candidatePaths at hc ⊢
  rcases List.mem_cons.mp hc with rfl | hc'
  · exact List.mem_cons_self _ _
  · apply List.mem_cons_of_mem
    obtain ⟨d, hd, hdc⟩ := List.mem_filterMap.mp hc'
    by_cases hdir :
        statIsDir fs' (joinPath (resolveClientDir cfg ck) d) = true
    · rw [if_pos hdir] at hdc
      obtain rfl := Option.some.inj hdc
      apply List.mem_filterMap.mpr
      refine ⟨d, unlink_readdir_subset p fs fs' hun _ d hd, ?_⟩
      rw [if_pos (unlink_statIsDir p fs fs' hun _ hdir)]
    · rw [if_neg hdir] at hdc
      cases hdc

theorem listFiles_of_find?_none (cfg : Config) (fs : FsEntry) (ck : String)
    (h : find? (resolveClientDir cfg ck) fs = none) :
    listFiles cfg fs ck = [] := by
  simp only [listFiles, readdir?, h]

/-! ## The claim theorems -/

/-- C2: at the concrete filesystem fsC2 (client c1 plus a stray file at
storage/secret) the reference "../secret" does not fail with an
invalid-argument error: getFilePath resolves it to storage/secret, a
physical path outside the client's namespace directory storage/c1, and
deleteFile consequently unlinks that outside file. -/
theorem C2_traversal_escapes :
    getFilePath cfgW fsC2 "c1" "../secret" = .ok ["storage", "secret"]
    ∧ (["storage", "secret"] : List String).take
        (resolveClientDir cfgW "c1").length ≠ resolveClientDir cfgW "c1"
    ∧ getFilePath cfgW fsC2 "c1" "../secret" ≠ .error .invalidArgument
    ∧ deleteFile cfgW fsC2 "c1" "../secret"
        = .ok (.dir [("storage", .dir [("c1", .dir [("a.txt", .file 1 0)])])]) := by
  refine ⟨rfl, by decide, ?_, by rfl⟩
  intro h
  rw [show getFilePath cfgW fsC2 "c1" "../secret"
    = Except.ok ["storage", "secret"] from rfl] at h
  exact Except.noConfusion h

/-- C3 counterexample: at fsC3 the reference u42/f.txt contains a separator
and does not exist at the direct path, yet getFilePath succeeds: the
subdirectory scan runs for separator-containing references too and finds
sub/u42/f.txt. -/
theorem C3_counterexample :
    '/' ∈ ("u42/f.txt").toList
    ∧ statIsFile fsC3 (joinPath (resolveClientDir cfgW "c1") "u42/f.txt") = false
    ∧ getFilePath cfgW fsC3 "c1" "u42/f.txt"
        = .ok ["storage", "c1", "sub", "u42", "f.txt"] :=
  ⟨by decide, by decide, rfl⟩

/-- C3 (amended): getFilePath follows the direct-then-scan algorithm, except
that the subdirectory scan runs for every reference, whether or not it
contains a separator: it equals the amended spec algorithm resolveSpec on
all inputs. -/
theorem C3_resolution_algorithm (cfg : Config) (fs : FsEntry)
    (clientKey reference : String) :
    getFilePath cfg fs clientKey reference
      = resolveSpec cfg fs clientKey reference :=
  getFilePath_eq_resolveSpec cfg fs clientKey reference

/-- C5: parseOriginalName is total on strings: when the input splits on
underscores into at least three tokens it returns the tokens after the
first two rejoined with underscores, and otherwise returns the input
unchanged. -/
theorem C5_parse_total (filename : String) :
    (2 ≤ filename.toList.count '_' →
      parseOriginalName filename
        = (joinChar '_' ((splitChar '_' filename.toList).drop 2)).asString)
    ∧ (filename.toList.count '_' < 2 →
      parseOriginalName filename = filename) := by
  have hlen := splitChar_length '_' filename.toList
  constructor
  · intro h
    simp only [parseOriginalName]
    rw [if_pos (by omega)]
  · intro h
    simp only [parseOriginalName]
    rw [if_neg (by omega)]

/-- Witness for C5: a well-formed stored name keeps its underscores after
the first two, and a legacy name with fewer tokens is returned unchanged. -/
theorem C5_parse_total_witness :
    parseOriginalName "ts_id_my_file.txt"
      = (joinChar '_' ((splitChar '_' ("ts_id_my_file.txt").toList).drop 2)).asString
    ∧ parseOriginalName "legacy.txt" = "legacy.txt" :=
  ⟨(C5_parse_total "ts_id_my_file.txt").1 (by decide),
   (C5_parse_total "legacy.txt").2 (by decide)⟩

/-- C8: getFileStatistics returns the zeroed structure whenever the file
list is empty, in particular when the client directory does not exist, and
(performing no division) never divides by the zero list length in that
case. -/
theorem C8_statistics_empty (cfg : Config) (fs : FsEntry) (ck : String) :
    (listFiles cfg fs ck = [] →
      getFileStatistics cfg fs ck
        = { totalFiles := 0, totalSize := 0, fileTypes := [], sizeBreakdown := [] })
    ∧ (find? (resolveClientDir cfg ck) fs = none →
      getFileStatistics cfg fs ck
        = { totalFiles := 0, totalSize := 0, fileTypes := [], sizeBreakdown := [] }) := by
  constructor
  · intro h
    simp [getFileStatistics, h]
  · intro h
    simp [getFileStatistics, listFiles_of_find?_none cfg fs ck h]

/-- Witness for C8 on the empty filesystem. -/
theorem C8_statistics_empty_witness :
    getFileStatistics cfgW (FsEntry.dir []) "c1"
      = { totalFiles := 0, totalSize := 0, fileTypes := [], sizeBreakdown := [] } :=
  (C8_statistics_empty cfgW (FsEntry.dir []) "c1").1 rfl

/-- C9: with at least one file listed, the percentage fields of the
fileTypes entries of getFileStatistics sum to 100 up to rounding: each
entry is round(count / totalFiles * 100), so the sum differs from 100 by
at most half the number of file-type categories present. -/
theorem C9_percentage_sum (cfg : Config) (fs : FsEntry) (ck : String)
    (h : listFiles cfg fs ck ≠ []) :
    |(((getFileStatistics cfg fs ck).fileTypes.map
        (fun kv => (kv.2.percentage : ℚ))).sum) - 100|
      ≤ ((getFileStatistics cfg fs ck).fileTypes.length : ℚ) / 2 := by
  rw [getFileStatistics_nonempty cfg fs ck h]
  dsimp only
  have hn : (listFiles cfg fs ck).length ≠ 0 :=
    fun h0 => h (List.length_eq_zero.mp h0)
  have hb := percSum_bound (listFiles cfg fs ck).length
    (fileTypesCounts (listFiles cfg fs ck))
  rw [counts_x_sum_eq_100 (listFiles cfg fs ck).length hn
    (fileTypesCounts (listFiles cfg fs ck))
    (fileTypesCounts_count_sum (listFiles cfg fs ck))] at hb
  rw [withPercentages_length]
  exact hb

/-- Witness for C9 on a one-file namespace. -/
theorem C9_percentage_sum_witness :
    |(((getFileStatistics cfgW fsW3 "c1").fileTypes.map
        (fun kv => (kv.2.percentage : ℚ))).sum) - 100|
      ≤ ((getFileStatistics cfgW fsW3 "c1").fileTypes.length : ℚ) / 2 :=
  C9_percentage_sum cfgW fsW3 "c1" (by decide)

/-- C10: on a non-empty file list, the fileTypes counts sum to totalFiles,
the fileTypes sizes sum to totalSize, the four sizeBreakdown buckets sum to
totalFiles and appear in their fixed insertion order, and totalSize is the
sum of the listed file sizes. -/
theorem C10_statistics_invariants (cfg : Config) (fs : FsEntry) (ck : String)
    (h : listFiles cfg fs ck ≠ []) :
    ((getFileStatistics cfg fs ck).fileTypes.map (fun kv => kv.2.count)).sum
        = (getFileStatistics cfg fs ck).totalFiles
    ∧ ((getFileStatistics cfg fs ck).fileTypes.map (fun kv => kv.2.totalSize)).sum
        = (getFileStatistics cfg fs ck).totalSize
    ∧ ((getFileStatistics cfg fs ck).sizeBreakdown.map (fun kv => kv.2)).sum
        = (getFileStatistics cfg fs ck).totalFiles
    ∧ (getFileStatistics cfg fs ck).sizeBreakdown.map (fun kv => kv.1)
        = ["0-1MB", "1-10MB", "10-100MB", "100MB+"]
    ∧ (getFileStatistics cfg fs ck).totalSize
        = ((listFiles cfg fs ck).map (fun f => f.size)).sum := by
  rw [getFileStatistics_nonempty cfg fs ck h]
  dsimp only
  refine ⟨?_, ?_, ?_, sizeBreakdownOf_keys _, ?_⟩
  · rw [withPercentages_counts, fileTypesCounts_count_sum]
  · rw [withPercentages_sizes, fileTypesCounts_size_sum, foldl_add_size]
    simp
  · rw [sizeBreakdownOf_sum]
  · rw [foldl_add_size]
    simp

/-- Witness for C10 on a one-file namespace. -/
theorem C10_statistics_invariants_witness :
    ((getFileStatistics cfgW fsW3 "c1").fileTypes.map (fun kv => kv.2.count)).sum
        = (getFileStatistics cfgW fsW3 "c1").totalFiles
    ∧ ((getFileStatistics cfgW fsW3 "c1").fileTypes.map
          (fun kv => kv.2.totalSize)).sum
        = (getFileStatistics cfgW fsW3 "c1").totalSize
    ∧ ((getFileStatistics cfgW fsW3 "c1").sizeBreakdown.map (fun kv => kv.2)).sum
        = (getFileStatistics cfgW fsW3 "c1").totalFiles
    ∧ (getFileStatistics cfgW fsW3 "c1").sizeBreakdown.map (fun kv => kv.1)
        = ["0-1MB", "1-10MB", "10-100MB", "100MB+"]
    ∧ (getFileStatistics cfgW fsW3 "c1").totalSize
        = ((listFiles cfgW fsW3 "c1").map (fun f => f.size)).sum :=
  C10_statistics_invariants cfgW fsW3 "c1" (by decide)

/-- C4 counterexample: at fsC4 the bare name f.txt exists both directly in
the client directory and in the owner subdirectory u1; deleteFile removes
the direct copy, after which getFilePath still succeeds on the same
reference by finding the subdirectory copy. -/
theorem C4_counterexample :
    deleteFile cfgW fsC4 "c1" "f.txt" = .ok fsC4del
    ∧ getFilePath cfgW fsC4del "c1" "f.txt"
        = .ok ["storage", "c1", "u1", "f.txt"] :=
  ⟨by rfl, by rfl⟩

/-- C4 (amended): when the reference names a file at no more than one of
its candidate locations, delete followed by fetchPath on the same reference
fails with NotFound; deleteFile itself fails with NotFound when resolution
fails, and when the unlink step fails. -/
theorem C4_delete_then_fetch (cfg : Config) (fs : FsEntry) (ck ref : String)
    (hone : ((candidatePaths cfg fs ck ref).filter
        (fun p => statIsFile fs p)).length ≤ 1) :
    (∀ fs', deleteFile cfg fs ck ref = .ok fs' →
      getFilePath cfg fs' ck ref = .error .notFound)
    ∧ (getFilePath cfg fs ck ref = .error .notFound →
      deleteFile cfg fs ck ref = .error .notFound)
    ∧ (∀ p, getFilePath cfg fs ck ref = .ok p → unlinkAt p fs = none →
      deleteFile cfg fs ck ref = .error .notFound) := by
  refine ⟨?_, ?_, ?_⟩
  · intro fs' hdel
    have hdel' : ∃ p, getFilePath cfg fs ck ref = .ok p
        ∧ unlinkAt p fs = some fs' := by
      unfold deleteFile at hdel
      cases hres : getFilePath cfg fs ck ref with
      | error e =>
        rw [hres] at hdel
        exact Except.noConfusion hdel
      | ok p =>
        rw [hres] at hdel
        refine ⟨p, rfl, ?_⟩
        change (match unlinkAt p fs with
          | some f => Except.ok f
          | none => Except.error StorageError.notFound) = Except.ok fs' at hdel
        cases hun : unlinkAt p fs with
        | none =>
          rw [hun] at hdel
          exact Except.noConfusion hdel
        | some f =>
          rw [hun] at hdel
          rw [Except.ok.inj hdel]
    obtain ⟨p, hp, hun⟩ := hdel'
    obtain ⟨hpmem, hpfile⟩ := getFilePath_ok_inv cfg fs ck ref p hp
    apply getFilePath_none_of_no_match
    intro c hc
    cases hcb : statIsFile fs' c with
    | false => rfl
    | true =>
      exfalso
      obtain ⟨hcfs, hcne⟩ := unlink_statIsFile p fs fs' hun c hcb
      have hcmem : c ∈ candidatePaths cfg fs ck ref :=
        candidatePaths_mono_unlink cfg fs fs' ck ref p hun c hc
      have h1 : c ∈ (candidatePaths cfg fs ck ref).filter
          (fun q => statIsFile fs q) := List.mem_filter.mpr ⟨hcmem, hcfs⟩
      have h2 : p ∈ (candidatePaths cfg fs ck ref).filter
          (fun q => statIsFile fs q) := List.mem_filter.mpr ⟨hpmem, hpfile⟩
      have := two_mem_length _ c p h1 h2 hcne
      omega
  · intro hres
    unfold deleteFile
    rw [hres]
  · intro p hres hun
    unfold deleteFile
    rw [hres]
    show (match unlinkAt p fs with
      | some fs' => Except.ok fs'
      | none => Except.error StorageError.notFound) = .error .notFound
    rw [hun]

/-- Witness for C4 on a namespace holding the reference at exactly one
location. -/
theorem C4_delete_then_fetch_witness :
    deleteFile cfgW fsW4 "c1" "g.txt" = .ok fsW4del
    ∧ getFilePath cfgW fsW4del "c1" "g.txt" = .error .notFound := by
  have hdel : deleteFile cfgW fsW4 "c1" "g.txt" = .ok fsW4del := by rfl
  exact ⟨hdel,
    (C4_delete_then_fetch cfgW fsW4 "c1" "g.txt" (by decide)).1 fsW4del hdel⟩

theorem no_backslash_join (u f : String) (hu : '\\' ∉ u.toList)
    (hf : '\\' ∉ f.toList) : '\\' ∉ (u ++ "/" ++ f).toList := by
  intro hmem
  rw [toList_append] at hmem
  rcases List.mem_append.mp hmem with h1 | h1
  · rw [toList_append] at h1
    rcases List.mem_append.mp h1 with h2 | h2
    · exact hu h2
    · simp at h2
  · exact hf h1

/-- C1: saving a bare-named file and then listing the same client yields
exactly one record carrying the generated stored filename; that record's
originalName is the input originalName, the stored filename parses back to
it via parseOriginalName, and every listed record carrying the stored
filename reports that originalName, whether or not an owner was
supplied. -/
theorem C1_save_list_roundtrip (cfg : Config) (fs₀ : FsEntry)
    (iso uuid : String) (now : Nat) (ck originalName : String) (bufLen : Nat)
    (mimeType : String) (createById : Option String) (fs' : FsEntry)
    (rec : StoredFile)
    (hiso : '_' ∉ iso.toList ∧ '/' ∉ iso.toList)
    (huuid : '_' ∉ uuid.toList ∧ '/' ∉ uuid.toList)
    (hname : '/' ∉ originalName.toList)
    (howner : ∀ u, createById = some u → validName u)
    (hwf : wfDir2 (find? (resolveClientDir cfg ck) fs₀))
    (h : saveBuffer cfg fs₀ iso uuid now ck originalName bufLen mimeType
        createById = some (fs', rec))
    (hfresh : ∀ r ∈ listFiles cfg fs₀ ck,
      r.filename ≠ generateUniqueFilename iso uuid originalName) :
    rec.filename = generateUniqueFilename iso uuid originalName
    ∧ rec.originalName = originalName
    ∧ parseOriginalName rec.filename = originalName
    ∧ ((listFiles cfg fs' ck).filter (fun r =>
        r.filename == generateUniqueFilename iso uuid originalName)).length = 1
    ∧ ∀ r ∈ listFiles cfg fs' ck,
        r.filename = generateUniqueFilename iso uuid originalName →
          r.originalName = originalName := by
  have hparse : parseOriginalName (generateUniqueFilename iso uuid originalName)
      = originalName :=
    parseOriginalName_gen iso uuid originalName hiso.1 huuid.1 hname
  cases createById with
  | none =>
    obtain ⟨pre, post, hlist, hpre, hpost, hrec, -⟩ :=
      saveBuffer_list_none cfg fs₀ iso uuid now ck originalName bufLen mimeType
        fs' rec hiso huuid hname hwf h hfresh
    refine ⟨by rw [hrec], by rw [hrec], ?_, ?_, ?_⟩
    · rw [hrec]
      exact hparse
    · rw [hlist]
      exact filter_single_middle pre post _ _
        (saveListRecord_filename cfg ck none _ bufLen now) hpre hpost
    · rw [hlist]
      intro r hr hrs
      rw [mem_middle_eq pre post _ _ hpre hpost r hr hrs,
        saveListRecord_originalName]
      exact hparse
  | some u =>
    obtain ⟨pre, post, hlist, hpre, hpost, hrec, -⟩ :=
      saveBuffer_list_some cfg fs₀ iso uuid now ck originalName bufLen mimeType
        u fs' rec hiso huuid hname (howner u rfl) hwf h hfresh
    refine ⟨by rw [hrec], by rw [hrec], ?_, ?_, ?_⟩
    · rw [hrec]
      exact hparse
    · rw [hlist]
      exact filter_single_middle pre post _ _
        (saveListRecord_filename cfg ck (some u) _ bufLen now) hpre hpost
    · rw [hlist]
      intro r hr hrs
      rw [mem_middle_eq pre post _ _ hpre hpost r hr hrs,
        saveListRecord_originalName]
      exact hparse

/-- Witness for C1: saving report.pdf for owner u42 into an empty
filesystem. -/
theorem C1_save_list_roundtrip_witness :
    recW1.originalName = "report.pdf"
    ∧ parseOriginalName recW1.filename = "report.pdf"
    ∧ ((listFiles cfgW fsW1 "c1").filter (fun r =>
        r.filename == generateUniqueFilename isoW uuidW "report.pdf")).length
        = 1 := by
  have h := C1_save_list_roundtrip cfgW (FsEntry.dir []) isoW uuidW 7 "c1"
    "report.pdf" 5 "application/pdf" (some "u42") fsW1 recW1
    (by decide) (by decide) (by decide)
    (by intro u hu; injection hu with hu; rw [← hu]; decide)
    (by decide) (by rfl) (by decide)
  exact ⟨h.2.1, h.2.2.1, h.2.2.2.1⟩

/-- C6 counterexample: for an owner-scoped stored name containing a
backslash, the backslash-to-slash rewrite of getFileInfo mangles the
reported relative path: the publicUrl splits the stored filename at the
backslash instead of carrying the owner/storedName shape. -/
theorem C6_counterexample :
    getFileInfo cfgW fsC6 "c1" "u42/ts_ab_x\\y.txt"
      = .ok { filename := "ts_ab_x\\y.txt"
              originalName := "x\\y.txt"
              size := 5
              mimeType := "application/octet-stream"
              url := "/storage/file/u42%2Fts_ab_x%2Fy.txt"
              uploadedAt := 0
              publicUrl := "/storage/c1/u42/ts_ab_x/y.txt" }
    ∧ ("/storage/c1/u42/ts_ab_x/y.txt" : String)
        ≠ "/storage/c1/" ++ "u42/ts_ab_x\\y.txt" :=
  ⟨by rfl, by decide⟩

/-- C6 (amended): for backslash-free owner and stored names, getFileInfo on
a reference resolving into an owner subdirectory stats the file, parses the
original name from the basename of the reference, and rebuilds the
owner/storedName relative path from the physical path, so its url and
publicUrl carry the owner/storedName shape. -/
theorem C6_info_owner_shape (cfg : Config) (fs : FsEntry) (ck ref u f : String)
    (sz b : Nat)
    (hres : getFilePath cfg fs ck ref
      = .ok (resolveClientDir cfg ck ++ [u, f]))
    (hfind : find? (resolveClientDir cfg ck ++ [u, f]) fs
      = some (.file sz b))
    (hnb : '\\' ∉ u.toList ∧ '\\' ∉ f.toList) :
    getFileInfo cfg fs ck ref = .ok
      { filename := basenameRaw ref
        originalName := parseOriginalName (basenameRaw ref)
        size := sz
        mimeType := getMimeType cfg ref
        url := "/storage/file/" ++ encodeURIComponent (u ++ "/" ++ f)
        uploadedAt := b
        publicUrl := "/" ++ cfg.storageRoot ++ "/" ++ ck ++ "/"
          ++ (u ++ "/" ++ f) } := by
  have hrel : backslashToSlash (pathRelative (resolveClientDir cfg ck)
      (resolveClientDir cfg ck ++ [u, f])) = u ++ "/" ++ f := by
    rw [pathRelative_under, joinStrs_pair]
    exact backslashToSlash_id _ (no_backslash_join u f hnb.1 hnb.2)
  rw [getFileInfo_ok cfg fs ck ref _ sz b hres hfind, hrel]

/-- Witness for C6: an owner-scoped file fetched by its owner/storedName
reference. -/
theorem C6_info_owner_shape_witness :
    getFileInfo cfgW fsW6 "c1" "u42/t_a_f.txt"
      = .ok { filename := "t_a_f.txt"
              originalName := "f.txt"
              size := 5
              mimeType := "application/octet-stream"
              url := "/storage/file/u42%2Ft_a_f.txt"
              uploadedAt := 3
              publicUrl := "/storage/c1/u42/t_a_f.txt" } := by
  rw [C6_info_owner_shape cfgW fsW6 "c1" "u42/t_a_f.txt" "u42" "t_a_f.txt"
    5 3 (by rfl) (by rfl) (by decide)]
  rfl

/-- C7 counterexample: for a stored name containing a backslash, the url
saveBuffer returns and the url getFileInfo returns for the same file
differ: getFileInfo rewrites the backslash to a slash before URL-encoding
the relative path. -/
theorem C7_counterexample :
    saveBuffer cfgW (FsEntry.dir []) isoW uuidW 7 "c1" "a\\b.txt" 5
        "text/plain" none = some (fsC7, recC7)
    ∧ recC7.url
        = "/storage/file/2024-01-01T00-00-00-000Z_abcd1234_a%5Cb.txt"
    ∧ getFileInfo cfgW fsC7 "c1" "2024-01-01T00-00-00-000Z_abcd1234_a\\b.txt"
        = .ok { filename := "2024-01-01T00-00-00-000Z_abcd1234_a\\b.txt"
                originalName := "a\\b.txt"
                size := 5
                mimeType := "application/octet-stream"
                url := "/storage/file/2024-01-01T00-00-00-000Z_abcd1234_a%2Fb.txt"
                uploadedAt := 7
                publicUrl := "/storage/c1/2024-01-01T00-00-00-000Z_abcd1234_a/b.txt" }
    ∧ ("/storage/file/2024-01-01T00-00-00-000Z_abcd1234_a%5Cb.txt" : String)
        ≠ "/storage/file/2024-01-01T00-00-00-000Z_abcd1234_a%2Fb.txt" :=
  ⟨by rfl, by rfl, by rfl, by decide⟩

/-- C7 (amended): for a save whose timestamp, UUID, original name and owner
are free of backslashes, the url and publicUrl strings of the record
saveBuffer returns, of the record listFiles later produces for the stored
filename, and of the record getFileInfo returns when the file is fetched by
its relative path, all agree on the fixed template, with the owner segment
present exactly when an owner was supplied. -/
theorem C7_url_consistency (cfg : Config) (fs₀ : FsEntry) (iso uuid : String)
    (now : Nat) (ck originalName : String) (bufLen : Nat) (mimeType : String)
    (createById : Option String) (fs' : FsEntry) (rec : StoredFile)
    (hiso : '_' ∉ iso.toList ∧ '/' ∉ iso.toList ∧ '\\' ∉ iso.toList)
    (huuid : '_' ∉ uuid.toList ∧ '/' ∉ uuid.toList ∧ '\\' ∉ uuid.toList)
    (hname : '/' ∉ originalName.toList ∧ '\\' ∉ originalName.toList)
    (howner : ∀ u, createById = some u → validName u ∧ '\\' ∉ u.toList)
    (hwf : wfDir2 (find? (resolveClientDir cfg ck) fs₀))
    (h : saveBuffer cfg fs₀ iso uuid now ck originalName bufLen mimeType
        createById = some (fs', rec))
    (hfresh : ∀ r ∈ listFiles cfg fs₀ ck,
      r.filename ≠ generateUniqueFilename iso uuid originalName) :
    rec.url = "/storage/file/" ++ encodeURIComponent
        (saveRelPath createById (generateUniqueFilename iso uuid originalName))
    ∧ rec.publicUrl = "/" ++ cfg.storageRoot ++ "/" ++ ck ++ "/"
        ++ saveRelPath createById (generateUniqueFilename iso uuid originalName)
    ∧ (∀ r ∈ listFiles cfg fs' ck,
        r.filename = generateUniqueFilename iso uuid originalName →
          r.url = rec.url ∧ r.publicUrl = rec.publicUrl)
    ∧ (∃ r ∈ listFiles cfg fs' ck,
        r.filename = generateUniqueFilename iso uuid originalName)
    ∧ getFileInfo cfg fs' ck
        (saveRelPath createById (generateUniqueFilename iso uuid originalName))
      = .ok { filename := basenameRaw (saveRelPath createById
                (generateUniqueFilename iso uuid originalName))
              originalName := parseOriginalName (basenameRaw (saveRelPath
                createById (generateUniqueFilename iso uuid originalName)))
              size := bufLen
              mimeType := getMimeType cfg (saveRelPath createById
                (generateUniqueFilename iso uuid originalName))
              url := rec.url
              uploadedAt := now
              publicUrl := rec.publicUrl } := by
  have hvstored : validName (generateUniqueFilename iso uuid originalName) :=
    validName_gen iso uuid originalName hiso.2.1 huuid.2.1 hname.1
  have hsb : '\\' ∉ (generateUniqueFilename iso uuid originalName).toList :=
    no_backslash_gen iso uuid originalName hiso.2.2 huuid.2.2 hname.2 hname.1
  have hplainD : plainList (resolveClientDir cfg ck) := plainList_normSegs _
  cases createById with
  | none =>
    obtain ⟨pre, post, hlist, hpre, hpost, hrec, hfind⟩ :=
      saveBuffer_list_none cfg fs₀ iso uuid now ck originalName bufLen mimeType
        fs' rec ⟨hiso.1, hiso.2.1⟩ ⟨huuid.1, huuid.2.1⟩ hname.1 hwf h hfresh
    have hjoin : joinPath (resolveClientDir cfg ck)
        (generateUniqueFilename iso uuid originalName)
        = resolveClientDir cfg ck
            ++ [generateUniqueFilename iso uuid originalName] :=
      joinPath_single _ _ hplainD hvstored
    have htgt : find? (resolveClientDir cfg ck
        ++ [generateUniqueFilename iso uuid originalName]) fs'
        = some (.file bufLen now) := hfind
    have hfile : statIsFile fs' (resolveClientDir cfg ck
        ++ [generateUniqueFilename iso uuid originalName]) = true :=
      (statIsFile_iff _ _).mpr ⟨bufLen, now, htgt⟩
    have hres : getFilePath cfg fs' ck
        (saveRelPath none (generateUniqueFilename iso uuid originalName))
        = .ok (resolveClientDir cfg ck
            ++ [generateUniqueFilename iso uuid originalName]) := by
      have hd := getFilePath_direct cfg fs' ck
        (generateUniqueFilename iso uuid originalName)
        (by rw [hjoin]; exact hfile)
      rw [hjoin] at hd
      exact hd
    have hrel : backslashToSlash (pathRelative (resolveClientDir cfg ck)
        (resolveClientDir cfg ck
          ++ [generateUniqueFilename iso uuid originalName]))
        = saveRelPath none (generateUniqueFilename iso uuid originalName) := by
      rw [pathRelative_under, joinStrs_single]
      exact backslashToSlash_id _ hsb
    refine ⟨by rw [hrec], by rw [hrec], ?_, ?_, ?_⟩
    · rw [hlist]
      intro r hr hrs
      rw [mem_middle_eq pre post _ _ hpre hpost r hr hrs, hrec]
      exact ⟨rfl, rfl⟩
    · rw [hlist]
      exact ⟨saveListRecord cfg ck none
          (generateUniqueFilename iso uuid originalName) bufLen now,
        List.mem_append.mpr (Or.inr (List.mem_cons_self _ _)),
        saveListRecord_filename cfg ck none _ bufLen now⟩
    · rw [getFileInfo_ok cfg fs' ck _ _ bufLen now hres htgt, hrel, hrec]
  | some u =>
    obtain ⟨hu, hub⟩ := howner u rfl
    obtain ⟨pre, post, hlist, hpre, hpost, hrec, hfind⟩ :=
      saveBuffer_list_some cfg fs₀ iso uuid now ck originalName bufLen mimeType
        u fs' rec ⟨hiso.1, hiso.2.1⟩ ⟨huuid.1, huuid.2.1⟩ hname.1 hu hwf h hfresh
    have hjoin : joinPath (resolveClientDir cfg ck)
        (u ++ "/" ++ generateUniqueFilename iso uuid originalName)
        = resolveClientDir cfg ck
            ++ [u, generateUniqueFilename iso uuid originalName] :=
      joinPath_pair _ u _ hplainD hu hvstored
    have htgt : find? (resolveClientDir cfg ck
        ++ [u, generateUniqueFilename iso uuid originalName]) fs'
        = some (.file bufLen now) := hfind
    have hfile : statIsFile fs' (resolveClientDir cfg ck
        ++ [u, generateUniqueFilename iso uuid originalName]) = true :=
      (statIsFile_iff _ _).mpr ⟨bufLen, now, htgt⟩
    have hres : getFilePath cfg fs' ck
        (saveRelPath (some u) (generateUniqueFilename iso uuid originalName))
        = .ok (resolveClientDir cfg ck
            ++ [u, generateUniqueFilename iso uuid originalName]) := by
      have hd := getFilePath_direct cfg fs' ck
        (u ++ "/" ++ generateUniqueFilename iso uuid originalName)
        (by rw [hjoin]; exact hfile)
      rw [hjoin] at hd
      exact hd
    have hrel : backslashToSlash (pathRelative (resolveClientDir cfg ck)
        (resolveClientDir cfg ck
          ++ [u, generateUniqueFilename iso uuid originalName]))
        = saveRelPath (some u) (generateUniqueFilename iso uuid originalName) := by
      rw [pathRelative_under, joinStrs_pair]
      exact backslashToSlash_id _ (no_backslash_join u _ hub hsb)
    refine ⟨by rw [hrec], by rw [hrec], ?_, ?_, ?_⟩
    · rw [hlist]
      intro r hr hrs
      rw [mem_middle_eq pre post _ _ hpre hpost r hr hrs, hrec]
      refine ⟨rfl, ?_⟩
      simp only [saveListRecord, ownedFileRecord, saveRelPath, str_append_assoc]
    · rw [hlist]
      exact ⟨saveListRecord cfg ck (some u)
          (generateUniqueFilename iso uuid originalName) bufLen now,
        List.mem_append.mpr (Or.inr (List.mem_cons_self _ _)),
        saveListRecord_filename cfg ck (some u) _ bufLen now⟩
    · rw [getFileInfo_ok cfg fs' ck _ _ bufLen now hres htgt, hrel, hrec]

/-- Witness for C7: saving doc.txt with no owner into an empty filesystem
and fetching its info by the stored relative path. -/
theorem C7_url_consistency_witness :
    getFileInfo cfgW fsW7 "c1"
        (saveRelPath none (generateUniqueFilename isoW uuidW "doc.txt"))
      = .ok { filename := basenameRaw (saveRelPath none
                (generateUniqueFilename isoW uuidW "doc.txt"))
              originalName := parseOriginalName (basenameRaw (saveRelPath none
                (generateUniqueFilename isoW uuidW "doc.txt")))
              size := 5
              mimeType := getMimeType cfgW (saveRelPath none
                (generateUniqueFilename isoW uuidW "doc.txt"))
              url := recW7.url
              uploadedAt := 7
              publicUrl := recW7.publicUrl } :=
  (C7_url_consistency cfgW (FsEntry.dir []) isoW uuidW 7 "c1" "doc.txt" 5
    "text/plain" none fsW7 recW7 (by decide) (by decide) (by decide)
    (fun u hu => Option.noConfusion hu) (by decide) (by rfl)
    (by decide)).2.2.2.2

end CodebaseStorage
